import Mathlib

/-!
# PyLink mode engine and identity layer: a shallow embedding

This file embeds the protocol-state core of PyLink (an IRC relay daemon) in
Lean 4 and verifies properties of its mode parser, mode applier, mode
reverser, case folder, identity resolver and UID generators.

The functions `isNick`, `IncrementalUIDGenerator.increment` / `next_uid` are
translated directly from `utils.py`.  The mode engine
(`parse_modes` / `apply_modes` / `reverse_modes`, `to_lower`, `nick_to_uid`,
`_get_UID`) lives in `classes.py`, which is not part of the sources at hand;
those functions are modelled from the specification, pinned down by the
behaviour asserted in `test/protocol_test_fixture.py`.
-/

namespace PyLink

/-! ## Case folding (`to_lower`)

Modelled from the spec: `to_lower` of `classes.py` is missing from the
sources.  The ASCII variant lowercases `A`–`Z` only; the `rfc1459` variant
additionally folds `{` to `[`, `}` to `]`, `|` to `\` and `~` to `^`
(behaviour pinned by `test_to_lower`). -/

/-- Lowercase a single ASCII character (`A`–`Z` only); everything else is
returned unchanged. -/
def asciiLowerChar (c : Char) : Char :=
  if 65 ≤ c.toNat ∧ c.toNat ≤ 90 then Char.ofNat (c.toNat + 32) else c

/-- One character of the `rfc1459` casemapping: fold the special punctuation
pairs, then lowercase ASCII letters. -/
def rfc1459LowerChar (c : Char) : Char :=
  if c = '{' then '['
  else if c = '}' then ']'
  else if c = '|' then '\\'
  else if c = '~' then '^'
  else asciiLowerChar c

/-- The per-character folder a casemapping selects. -/
def foldCharOf (casemapping : String) : Char → Char :=
  if casemapping = "rfc1459" then rfc1459LowerChar else asciiLowerChar

/-- Modelled from the spec: `to_lower` (missing `classes.py`), the
casemapping-aware case folder.  `casemapping` selects the `rfc1459` or plain
ASCII variant; folding is character-wise. -/
def to_lower (casemapping : String) (s : String) : String :=
  String.mk (s.data.map (foldCharOf casemapping))

/-- The ASCII case folder, as a standalone string function. -/
def asciiLower (s : String) : String := to_lower "ascii" s

/-- Modelled from the spec: the memoization wrapper around `to_lower`.  The
cache maps already-folded inputs to their results; a hit returns the cached
value without recomputation, a miss computes, stores and returns. -/
def memo_to_lower (casemapping : String) (cache : List (String × String))
    (s : String) : String × List (String × String) :=
  match cache.find? (fun kv => kv.1 == s) with
  | some kv => (kv.2, cache)
  | none => (to_lower casemapping s, (s, to_lower casemapping s) :: cache)

/-! ## `isNick` (from `utils.py`)

`_nickregex = r'^[A-Za-z\|\\_\[\]\{\}\^\`][A-Z0-9a-z\-\|\\_\[\]\{\}\^\`]*$'`
-/

/-- Characters allowed as the first character of a nick: letters and the
punctuation set of `_nickregex` (no digits, no `-`). -/
def nickFirstChar (c : Char) : Bool :=
  (65 ≤ c.toNat && c.toNat ≤ 90) || (97 ≤ c.toNat && c.toNat ≤ 122) ||
  c == '|' || c == '\\' || c == '_' || c == '[' || c == ']' ||
  c == '{' || c == '}' || c == '^' || c == '`'

/-- Characters allowed after the first character of a nick: additionally
digits and `-`. -/
def nickRestChar (c : Char) : Bool :=
  nickFirstChar c || (48 ≤ c.toNat && c.toNat ≤ 57) || c == '-'

/-- `re.match(_nickregex, s)` of `utils.py`: nonempty, first character from
the restricted class, remaining characters from the extended class. -/
def matchesNickRegex (s : String) : Bool :=
  match s.data with
  | [] => false
  | c :: cs => nickFirstChar c && cs.all nickRestChar

/-- `isNick` from `utils.py`.  `nicklen` is `None` or an integer; the length
check runs only when `nicklen` is truthy (Python: `if nicklen and len(s) >
nicklen`), so both `None` and `0` skip it. -/
def isNick (s : String) (nicklen : Option Nat) : Bool :=
  if nicklen.getD 0 ≠ 0 && s.length > nicklen.getD 0 then false
  else matchesNickRegex s

/-! ## `IncrementalUIDGenerator` (from `utils.py`)

The generator holds a fixed-length digit string `uidchars` over an alphabet
`allowedchars`; `increment` performs the odometer carry recursively, indexing
`uidchars[pos]` with *Python* indexing semantics (negative positions index
from the end).  A `none` result models an unhandled Python exception
(IndexError).  `fuel` bounds the recursion depth; every concrete run below is
shown to finish with fuel to spare, so the bound is never the reason a run
stops. -/

/-- Python list indexing: `l[i]` with negative indices counting from the end;
out of range is an error (`none`). -/
def pyIdx (n : Nat) (i : Int) : Option Nat :=
  let j : Int := if i < 0 then i + n else i
  if 0 ≤ j ∧ j < n then some j.toNat else none

/-- Python `str.find`: index of the first occurrence, `-1` if absent. -/
def pyFind (l : List Char) (c : Char) : Int :=
  match l.indexOf? c with
  | some k => (k : Int)
  | none => -1

/-- `IncrementalUIDGenerator.increment` from `utils.py`, one recursive call
per fuel unit.  Faithful to the source: if `uidchars[pos]` is the last
allowed character it is reset to the first and the carry recurses to
`pos - 1` with no bounds check, so the carry can run into Python's negative
indexing instead of failing. -/
def increment (allowed : List Char) : Nat → List Char → Int → Option (List Char)
  | 0, _, _ => none
  | fuel + 1, uid, pos =>
    match pyIdx uid.length pos with
    | none => none
    | some j =>
      match uid.get? j with
      | none => none
      | some c =>
        match allowed.getLast? with
        | none => none
        | some lastc =>
          if c = lastc then
            match allowed.head? with
            | none => none
            | some firstc => increment allowed fuel (uid.set j firstc) (pos - 1)
          else
            let idx := pyFind allowed c
            match pyIdx allowed.length (idx + 1) with
            | none => none
            | some k =>
              match allowed.get? k with
              | none => none
              | some c' => some (uid.set j c')

/-- `IncrementalUIDGenerator.next_uid` from `utils.py`: return
`sid + uidchars`, then increment.  The pair is (returned UID, new digit
state). -/
def next_uid (allowed : List Char) (sid : String) (length : Nat)
    (uid : List Char) : Option (String × List Char) :=
  (increment allowed (2 * length + 4) uid ((length : Int) - 1)).map
    (fun uid' => (sid ++ String.mk uid, uid'))

/-- Run `next_uid` `n` times from the given digit state, collecting the
returned UIDs; `none` if any call errors. -/
def runIncremental (allowed : List Char) (sid : String) (length : Nat) :
    Nat → List Char → Option (List String)
  | 0, _ => some []
  | n + 1, uid =>
    match next_uid allowed sid length uid with
    | none => none
    | some (u, uid') =>
      match runIncremental allowed sid length n uid' with
      | none => none
      | some us => some (u :: us)

/-- The initial digit state of `IncrementalUIDGenerator.__init__`:
`[allowedchars[0]] * length`. -/
def initUidchars (allowed : List Char) (length : Nat) : List Char :=
  List.replicate length (allowed.headD 'A')

/-! ## The mode engine

Modelled from the spec: `parse_modes`, `apply_modes` and `reverse_modes` of
`classes.py` are missing from the sources; the model below follows §4.4–§4.6
of the specification and is pinned down by the assertions of
`test/protocol_test_fixture.py`.

Mode categories (§3, matching PyLink's `*A`/`*B`/`*C`/`*D` grouping):
* `noarg`  — boolean toggle, never an argument;
* `arg`    — single value, argument consumed only when setting
  (limit-like: unset carries no argument and removes unconditionally);
* `argSet` — single value, argument consumed on both signs
  (key-like: unset must match the stored value case-insensitively);
* `list`   — multi-valued, case-insensitive add/remove (bans);
* `pfx`    — prefix (rank) modes on channel members.

A canonical operation is a `(sign, letter, argument)` triple; state is the
channel's (or user's) mode set, prefix-mode table and member set.  Sets are
represented as lists compared by membership, mirroring Python's unordered
sets. -/

inductive ModeCat : Type
  | noarg
  | arg
  | argSet
  | list
  | pfx
deriving DecidableEq, Repr

/-- A canonical mode operation `(sign+letter, argument-or-None)`:
`plus = true` renders as `+`, `false` as `-`. -/
structure Op where
  plus : Bool
  letter : Char
  arg : Option String
deriving DecidableEq, Repr

/-- Mode-related state of a single target (channel, or user with an empty
prefix table and member set).  `modes` is the set of `(letter, argument)`
pairs, `prefixmodes` the set of `(prefix letter, member UID)` rank
assignments, `users` the member set. -/
structure ChanState where
  modes : List (Char × Option String)
  prefixmodes : List (Char × String)
  users : List String
deriving DecidableEq, Repr

/-- Does removal argument `x` select stored argument `a`?  A `None` removal
argument selects every entry of the letter (limit-like unset); an argument
selects exactly the case-insensitively equal stored arguments. -/
def ciMatch (fold : String → String) (x a : Option String) : Bool :=
  match x, a with
  | none, _ => true
  | some x', some a' => fold a' == fold x'
  | some _, none => false

/-- Python `set.add`: insert unless already present. -/
def insertIfAbsent {α : Type} [DecidableEq α] (a : α) (l : List α) : List α :=
  if a ∈ l then l else a :: l

/-- The first stored entry of `letter` whose argument case-insensitively
matches `x`, if any (its argument, in the originally-stored case). -/
def listMatch (fold : String → String) (letter : Char) (x : Option String)
    (modes : List (Char × Option String)) : Option (Option String) :=
  (modes.find? (fun e => e.1 == letter && ciMatch fold x e.2)).map (fun e => e.2)

/-- The argument of the first stored entry for `letter`, if any (`ARG_SET`
letters keep at most one). -/
def letterVal (letter : Char) (modes : List (Char × Option String)) :
    Option (Option String) :=
  (modes.find? (fun e => e.1 == letter)).map (fun e => e.2)

/-- Modelled from the spec: one step of `apply_modes` (§4.5), applying a
single canonical operation to the target state.  Unknown letters are
ignored.  Adds: `noarg` inserts `(letter, None)`; `arg`/`argSet` replace the
stored entry; `list` inserts unless a case-insensitive duplicate exists;
`pfx` inserts into the rank table.  Removes: `pfx` discards from the rank
table; all other categories discard the stored entries of the letter
selected by `ciMatch` (so a key-like remove with a non-matching argument is
a no-op, per `test_apply_modes_channel_key`). -/
def applyOne (table : Char → Option ModeCat) (fold : String → String)
    (st : ChanState) (op : Op) : ChanState :=
  match table op.letter with
  | none => st
  | some ModeCat.pfx =>
    match op.arg with
    | none => st
    | some u =>
      if op.plus then
        { st with prefixmodes := insertIfAbsent (op.letter, u) st.prefixmodes }
      else
        { st with prefixmodes := st.prefixmodes.filter (fun p => p ≠ (op.letter, u)) }
  | some cat =>
    if op.plus then
      match cat with
      | ModeCat.noarg =>
        { st with modes := insertIfAbsent (op.letter, op.arg) st.modes }
      | ModeCat.list =>
        if st.modes.any (fun e => e.1 == op.letter && ciMatch fold op.arg e.2) then st
        else { st with modes := (op.letter, op.arg) :: st.modes }
      | _ =>
        { st with modes :=
            (op.letter, op.arg) :: st.modes.filter (fun e => e.1 != op.letter) }
    else
      { st with modes :=
          st.modes.filter (fun e => !(e.1 == op.letter && ciMatch fold op.arg e.2)) }

/-- Modelled from the spec: `apply_modes` (§4.5) applies a batch of canonical
operations in order. -/
def apply_modes (table : Char → Option ModeCat) (fold : String → String)
    (st : ChanState) (ops : List Op) : ChanState :=
  ops.foldl (applyOne table fold) st

/-- Modelled from the spec: one candidate of `reverse_modes` (§4.6),
computing against the *pre-batch* state `S` the operation that would restore
`S` if `op` were applied, or `none` when `op` would be a no-op on `S`. -/
def reverseOne (table : Char → Option ModeCat) (fold : String → String)
    (S : ChanState) (op : Op) : Option Op :=
  match table op.letter with
  | none => none
  | some ModeCat.pfx =>
    match op.arg with
    | none => none
    | some u =>
      let held := (op.letter, u) ∈ S.prefixmodes
      if op.plus then
        if held then none else some ⟨false, op.letter, op.arg⟩
      else
        if held then some ⟨true, op.letter, op.arg⟩ else none
  | some ModeCat.noarg =>
    let isSet := S.modes.any (fun e => e.1 == op.letter)
    if op.plus then
      if isSet then none else some ⟨false, op.letter, none⟩
    else
      if isSet then some ⟨true, op.letter, none⟩ else none
  | some ModeCat.list =>
    if op.plus then
      match listMatch fold op.letter op.arg S.modes with
      | some _ => none
      | none => some ⟨false, op.letter, op.arg⟩
    else
      match listMatch fold op.letter op.arg S.modes with
      | some stored => some ⟨true, op.letter, stored⟩
      | none => none
  | some _ =>
    match letterVal op.letter S.modes with
    | some prev =>
      if op.plus && (op.arg == prev) then none
      else some ⟨true, op.letter, prev⟩
    | none =>
      if op.plus then some ⟨false, op.letter, none⟩ else none

/-- Modelled from the spec: `reverse_modes` (§4.6) over a canonical operation
batch, preserving the batch order and omitting no-ops. -/
def reverse_modes (table : Char → Option ModeCat) (fold : String → String)
    (S : ChanState) (ops : List Op) : List Op :=
  ops.filterMap (reverseOne table fold S)

/-! ## Identity resolution and the mode parser -/

/-- The per-network entity state the parser consults: the user registry
(`uid → nick`, in insertion order) and the channel registry. -/
structure Network where
  users : List (String × String)
  channels : List (String × ChanState)

/-- Modelled from the spec: `nick_to_uid` (missing `classes.py`) — the first
user, in registry order, whose nick case-insensitively matches. -/
def nick_to_uid (fold : String → String) (net : Network) (nick : String) :
    Option String :=
  (net.users.find? (fun u => fold u.2 == fold nick)).map (fun u => u.1)

/-- Modelled from the spec: `_get_UID` (missing `classes.py`) — a known UID
(exact match) is returned unchanged, otherwise the token is resolved as a
nick, otherwise it passes through unchanged. -/
def _get_UID (fold : String → String) (net : Network) (tok : String) : String :=
  if net.users.any (fun u => u.1 == tok) then tok
  else
    match nick_to_uid fold net tok with
    | some uid => uid
    | none => tok

/-- Case-insensitive channel lookup (channel names compare case-insensitively). -/
def lookupChannel (fold : String → String) (net : Network) (name : String) :
    Option ChanState :=
  (net.channels.find? (fun c => fold c.1 == fold name)).map (fun c => c.2)

/-- Does a letter of category `cat` consume a positional argument under the
current sign?  `list`, `argSet` and `pfx` consume on both signs; `arg` only
when setting; `noarg` never. -/
def needsArg (cat : ModeCat) (plus : Bool) : Bool :=
  match cat with
  | ModeCat.list => true
  | ModeCat.argSet => true
  | ModeCat.pfx => true
  | ModeCat.arg => plus
  | ModeCat.noarg => false

/-- Modelled from the spec: the per-operation validation of `parse_modes`
(§4.4) against pre-batch channel state.  `list` removes require a
case-insensitive stored match and are rewritten to the stored case; key-like
`argSet` removes require a case-insensitive match of the stored value or the
wildcard `*`, and are rewritten to the stored case; `pfx` arguments are
resolved via `_get_UID` and must denote a current channel member; everything
else is included as-is. -/
def validateOp (fold : String → String) (net : Network) (ch : ChanState)
    (cat : ModeCat) (plus : Bool) (letter : Char) (a : String) : Option Op :=
  match cat with
  | ModeCat.list =>
    if plus then some ⟨true, letter, some a⟩
    else
      match listMatch fold letter (some a) ch.modes with
      | some stored => some ⟨false, letter, stored⟩
      | none => none
  | ModeCat.argSet =>
    if plus then some ⟨true, letter, some a⟩
    else
      match letterVal letter ch.modes with
      | some (some v) =>
        if fold a == fold v || a == "*" then some ⟨false, letter, some v⟩
        else none
      | _ => none
  | ModeCat.pfx =>
    let uid := _get_UID fold net a
    if ch.users.contains uid then some ⟨plus, letter, some uid⟩ else none
  | _ => some ⟨plus, letter, some a⟩

/-- Modelled from the spec: the left-to-right walk of `parse_modes` (§4.4)
over the mode string, tracking the current sign (default `+`), consuming
positional arguments in the order argument-taking letters appear, skipping
unknown letters, and dropping operations that fail validation. -/
def parseChars (table : Char → Option ModeCat) (fold : String → String)
    (net : Network) (ch : ChanState) :
    List Char → List String → Bool → List Op
  | [], _, _ => []
  | c :: cs, params, plus =>
    if c = '+' then parseChars table fold net ch cs params true
    else if c = '-' then parseChars table fold net ch cs params false
    else
      match table c with
      | none => parseChars table fold net ch cs params plus
      | some cat =>
        if needsArg cat plus then
          match params with
          | [] => parseChars table fold net ch cs [] plus
          | a :: params' =>
            match validateOp fold net ch cat plus c a with
            | some op => op :: parseChars table fold net ch cs params' plus
            | none => parseChars table fold net ch cs params' plus
        else ⟨plus, c, none⟩ :: parseChars table fold net ch cs params plus

/-- Modelled from the spec: `parse_modes` (§4.4) for a channel target: the
first raw token is the mode string, the rest are positional arguments; the
target is looked up case-insensitively. -/
def parse_modes (table : Char → Option ModeCat) (fold : String → String)
    (net : Network) (target : String) (args : List String) : List Op :=
  match args with
  | [] => []
  | modestr :: params =>
    match lookupChannel fold net target with
    | none => []
    | some ch => parseChars table fold net ch modestr.data params true

/-- The RFC 1459 channel mode table used by the protocol test fixture:
`m n t i p s` boolean, `b` list, `k` key, `l` limit, `o v` prefix. -/
def rfcTable (c : Char) : Option ModeCat :=
  if c = 'm' ∨ c = 'n' ∨ c = 't' ∨ c = 'i' ∨ c = 'p' ∨ c = 's' then some ModeCat.noarg
  else if c = 'b' then some ModeCat.list
  else if c = 'k' then some ModeCat.argSet
  else if c = 'l' then some ModeCat.arg
  else if c = 'o' ∨ c = 'v' then some ModeCat.pfx
  else none

/-! ## Well-formedness

The data-model invariants of §3: single-value letters keep at most one live
entry (all stored entries for such a letter coincide, matching set
semantics), boolean letters store no argument.  A canonical batch (the shape
`parse_modes` emits) carries no argument on `noarg` operations and always an
argument on `list` and `pfx` operations. -/

/-- Is the category single-valued (`ARG`/`ARG_SET`)? -/
def isSingle (c : Option ModeCat) : Bool :=
  c == some ModeCat.arg || c == some ModeCat.argSet

/-- State invariant: single-value letters have all stored entries equal
(at most one live entry, up to set semantics), boolean letters store
`None`. -/
def WFstate (table : Char → Option ModeCat) (st : ChanState) : Prop :=
  (∀ e ∈ st.modes, ∀ e' ∈ st.modes,
      isSingle (table e.1) = true → e.1 = e'.1 → e.2 = e'.2) ∧
  (∀ e ∈ st.modes, table e.1 = some ModeCat.noarg → e.2 = none)

/-- Batch invariant satisfied by canonical operations: boolean operations
carry no argument, `list` and `pfx` operations always carry one. -/
def WFbatch (table : Char → Option ModeCat) (ops : List Op) : Prop :=
  ∀ op ∈ ops,
    (table op.letter = some ModeCat.noarg → op.arg = none) ∧
    (table op.letter = some ModeCat.list → op.arg.isSome = true) ∧
    (table op.letter = some ModeCat.pfx → op.arg.isSome = true)

instance (table : Char → Option ModeCat) (st : ChanState) :
    Decidable (WFstate table st) := by
  unfold WFstate; infer_instance

instance (table : Char → Option ModeCat) (ops : List Op) :
    Decidable (WFbatch table ops) := by
  unfold WFbatch; infer_instance

/-! ## Comparing states

Python compares sets extensionally; lists standing in for sets are compared
by membership. -/

/-- Extensional equality of lists-as-sets (Python `set ==`). -/
def sameSet {α : Type} (xs ys : List α) : Prop :=
  ∀ x, x ∈ xs ↔ x ∈ ys

/-- Case-fold the argument of a stored mode entry. -/
def foldEntry (fold : String → String) (e : Char × Option String) :
    Char × Option String :=
  (e.1, e.2.map fold)

/-- Exact state equality up to set semantics: the claim `apply(apply(S, B),
reverse_modes(S, B)) == S` compares mode sets, prefix tables and member sets
extensionally. -/
def stateEq (a b : ChanState) : Prop :=
  sameSet a.modes b.modes ∧ sameSet a.prefixmodes b.prefixmodes ∧
  a.users = b.users

/-- State equality up to case-folding of the stored mode arguments. -/
def stateEqUpToCase (fold : String → String) (a b : ChanState) : Prop :=
  sameSet (a.modes.map (foldEntry fold)) (b.modes.map (foldEntry fold)) ∧
  sameSet a.prefixmodes b.prefixmodes ∧ a.users = b.users

/-- Is an entry of `letter` with case-folded argument `c` present?  (The
membership view of a state's mode set after case-folding.) -/
def inClassB (fold : String → String) (letter : Char) (c : Option String)
    (st : ChanState) : Bool :=
  st.modes.any (fun e => e.1 == letter && e.2.map fold == c)

/-- Is the rank pair `p = (prefix letter, uid)` held?  (The membership view
of a state's prefix-mode table.) -/
def pmB (p : Char × String) (st : ChanState) : Bool :=
  st.prefixmodes.any (fun e => e == p)

/-! ## Case folding: idempotence -/

theorem toNat_Char_ofNat (n : Nat) (h : n < 55296) : (Char.ofNat n).toNat = n := by
  unfold Char.ofNat
  rw [dif_pos (Or.inl h)]
  unfold Char.ofNatAux Char.toNat
  simp
  rfl

theorem asciiLowerChar_toNat (c : Char) (h : 65 ≤ c.toNat ∧ c.toNat ≤ 90) :
    (asciiLowerChar c).toNat = c.toNat + 32 := by
  unfold asciiLowerChar
  rw [if_pos h]
  exact toNat_Char_ofNat _ (by omega)

theorem asciiLowerChar_eq_self (c : Char) (h : ¬(65 ≤ c.toNat ∧ c.toNat ≤ 90)) :
    asciiLowerChar c = c := by
  unfold asciiLowerChar
  exact if_neg h

theorem asciiLowerChar_idem (c : Char) :
    asciiLowerChar (asciiLowerChar c) = asciiLowerChar c := by
  by_cases h : 65 ≤ c.toNat ∧ c.toNat ≤ 90
  · have ht := asciiLowerChar_toNat c h
    exact asciiLowerChar_eq_self _ (by omega)
  · rw [asciiLowerChar_eq_self c h]
    exact asciiLowerChar_eq_self c h

theorem asciiLowerChar_cases (c : Char) :
    97 ≤ (asciiLowerChar c).toNat ∧ (asciiLowerChar c).toNat ≤ 122 ∨
    asciiLowerChar c = c := by
  by_cases h : 65 ≤ c.toNat ∧ c.toNat ≤ 90
  · left
    have ht := asciiLowerChar_toNat c h
    omega
  · right
    exact asciiLowerChar_eq_self c h

theorem rfc1459LowerChar_idem (c : Char) :
    rfc1459LowerChar (rfc1459LowerChar c) = rfc1459LowerChar c := by
  by_cases h1 : c = '{'
  · subst h1; decide
  by_cases h2 : c = '}'
  · subst h2; decide
  by_cases h3 : c = '|'
  · subst h3; decide
  by_cases h4 : c = '~'
  · subst h4; decide
  have hc : rfc1459LowerChar c = asciiLowerChar c := by
    unfold rfc1459LowerChar
    rw [if_neg h1, if_neg h2, if_neg h3, if_neg h4]
  rw [hc]
  rcases asciiLowerChar_cases c with ⟨h97, h122⟩ | heq
  · have n1 : asciiLowerChar c ≠ '{' := fun he => by rw [he] at h122; exact absurd h122 (by decide)
    have n2 : asciiLowerChar c ≠ '}' := fun he => by rw [he] at h122; exact absurd h122 (by decide)
    have n3 : asciiLowerChar c ≠ '|' := fun he => by rw [he] at h122; exact absurd h122 (by decide)
    have n4 : asciiLowerChar c ≠ '~' := fun he => by rw [he] at h122; exact absurd h122 (by decide)
    unfold rfc1459LowerChar
    rw [if_neg n1, if_neg n2, if_neg n3, if_neg n4]
    exact asciiLowerChar_idem c
  · rw [heq, hc, heq]

theorem foldCharOf_idem (cm : String) (a : Char) :
    foldCharOf cm (foldCharOf cm a) = foldCharOf cm a := by
  unfold foldCharOf
  by_cases h : cm = "rfc1459"
  · rw [if_pos h]
    exact rfc1459LowerChar_idem a
  · rw [if_neg h]
    exact asciiLowerChar_idem a

theorem to_lower_idem (cm s : String) : to_lower cm (to_lower cm s) = to_lower cm s := by
  unfold to_lower
  refine congrArg String.mk ?_
  show List.map (foldCharOf cm) (List.map (foldCharOf cm) s.data) = _
  rw [List.map_map]
  exact List.map_congr_left (fun a _ => by
    simp only [Function.comp_apply]
    exact foldCharOf_idem cm a)

/-- C8: the case-folding function `to_lower` (both the ASCII and the
`rfc1459` variant, selected by `cm`) is idempotent — `fold(fold(s)) =
fold(s)` — and memoization is observationally transparent: a first call
through the memo cache returns exactly `to_lower cm s` while recording it,
and a repeat call with the resulting cache returns an identical result. -/
theorem to_lower_idempotent_memo_transparent (cm s : String) :
    to_lower cm (to_lower cm s) = to_lower cm s ∧
    memo_to_lower cm [] s = (to_lower cm s, [(s, to_lower cm s)]) ∧
    (memo_to_lower cm (memo_to_lower cm [] s).2 s).1 = (memo_to_lower cm [] s).1 := by
  have h1 : memo_to_lower cm [] s = (to_lower cm s, [(s, to_lower cm s)]) := rfl
  have h2 : memo_to_lower cm [(s, to_lower cm s)] s = (to_lower cm s, [(s, to_lower cm s)]) := by
    unfold memo_to_lower
    rw [List.find?_cons_of_pos _ (by simp)]
  refine ⟨to_lower_idem cm s, h1, ?_⟩
  rw [h1, h2]

/-- C9: `isNick` applies its length limit only when `nicklen` is truthy;
since Python's `0` is falsy, `is_nick(s, nicklen=0)` performs no length
restriction at all — it accepts exactly the grammar-valid nicks of any
length, the same as passing no limit. -/
theorem isNick_zero_limit_unrestricted (s : String) :
    isNick s (some 0) = matchesNickRegex s ∧ isNick s none = matchesNickRegex s := by
  constructor <;> simp [isNick]

/-- C2 (the code at the failing input): the `IncrementalUIDGenerator` from
`utils.py` with alphabet `AB`, length 2 and SID prefix `S` returns `SAA`,
`SAB`, `SBA`, `SBB` — and then the fifth `next_uid()` call returns `SAB`
again instead of raising: the carry recursion walks past position 0 into
Python's negative indexing, silently wrapping the digit string and reusing
an already-issued UID. -/
theorem incremental_uid_wraps_silently :
    runIncremental ['A', 'B'] "S" 2 5 (initUidchars ['A', 'B'] 2) =
      some ["SAA", "SAB", "SBA", "SBB", "SAB"] := by
  decide

/-- C6: `parse_modes` walks the mode string left to right tracking the
current sign (a sign-less leading letter defaults to `+`), consumes
positional arguments in the order the argument-taking letters appear, and
returns the operations in the same left-to-right order, preserving
interleaved signs and repeated letters.  Concretely: `['+ntl', '59']` on a
fresh channel yields `+n`, `+t`, `+l 59`; `['n-s']` defaults the leading
letter to `+`; `['+oovv', '100', '102', '100', '102']` consumes the four
arguments in order; `['+o-o', '100', '100']` keeps the repeated letter under
both signs. -/
theorem parse_modes_walk_order :
    parse_modes rfcTable asciiLower ⟨[], [("#chan", ⟨[], [], []⟩)]⟩ "#chan" ["+ntl", "59"] =
      [⟨true, 'n', none⟩, ⟨true, 't', none⟩, ⟨true, 'l', some "59"⟩] ∧
    parse_modes rfcTable asciiLower ⟨[], [("#chan", ⟨[], [], []⟩)]⟩ "#chan" ["n-s"] =
      [⟨true, 'n', none⟩, ⟨false, 's', none⟩] ∧
    parse_modes rfcTable asciiLower
        ⟨[("100", "u100"), ("102", "u102")], [("#chan", ⟨[], [], ["100", "102"]⟩)]⟩
        "#chan" ["+oovv", "100", "102", "100", "102"] =
      [⟨true, 'o', some "100"⟩, ⟨true, 'o', some "102"⟩,
       ⟨true, 'v', some "100"⟩, ⟨true, 'v', some "102"⟩] ∧
    parse_modes rfcTable asciiLower
        ⟨[("100", "u100"), ("102", "u102")], [("#chan", ⟨[], [], ["100", "102"]⟩)]⟩
        "#chan" ["+o-o", "100", "100"] =
      [⟨true, 'o', some "100"⟩, ⟨false, 'o', some "100"⟩] := by
  refine ⟨by decide, by decide, by decide, by decide⟩

/-- C3, counterexample to the claim as stated: `apply_modes` does *not*
discard a stored `ARG_SET` entry unconditionally.  Applying `('-k',
'abcdef')` to a channel whose stored key is `qwerty` leaves the stored key
in place (`test_apply_modes_channel_key`: "Trying to remove with wrong key
is a no-op"), whereas the claim says the stored key would still be
removed. -/
theorem apply_modes_key_remove_claim_false :
    ('k', some "qwerty") ∈ (apply_modes rfcTable asciiLower
        ⟨[('s', none), ('k', some "qwerty")], [], []⟩
        [⟨false, 'k', some "abcdef"⟩]).modes := by
  decide

/-- C3, amended: `apply_modes` handles an `ARG_SET` remove by discarding the
stored entry only when the supplied argument case-insensitively matches the
stored value (no exact-case re-validation); with a non-matching argument the
remove is a no-op and the stored entry survives. -/
theorem apply_modes_argset_remove_checks_case
    (t : Char → Option ModeCat) (f : String → String) (st : ChanState)
    (l : Char) (v x : String)
    (hcat : t l = some ModeCat.argSet)
    (hstored : ∀ e ∈ st.modes, e.1 = l → e.2 = some v) :
    (f x ≠ f v → apply_modes t f st [⟨false, l, some x⟩] = st) ∧
    (f x = f v →
      (apply_modes t f st [⟨false, l, some x⟩]).modes =
        st.modes.filter (fun e => !(e.1 == l)) ∧
      (l, some v) ∉ (apply_modes t f st [⟨false, l, some x⟩]).modes) := by
  have happ : apply_modes t f st [⟨false, l, some x⟩] =
      { st with modes :=
          st.modes.filter (fun e => !(e.1 == l && ciMatch f (some x) e.2)) } := by
    simp [apply_modes, applyOne, hcat]
  constructor
  · intro hne
    rw [happ]
    have hfix : st.modes.filter (fun e => !(e.1 == l && ciMatch f (some x) e.2)) =
        st.modes := by
      refine List.filter_eq_self.mpr (fun e he => ?_)
      by_cases hel : e.1 = l
      · rw [hstored e he hel]
        simp only [ciMatch]
        simp
        exact Or.inr (fun h => hne h.symm)
      · simp [hel]
    rw [hfix]
  · intro heq
    have hfix : st.modes.filter (fun e => !(e.1 == l && ciMatch f (some x) e.2)) =
        st.modes.filter (fun e => !(e.1 == l)) := by
      refine List.filter_congr (fun e he => ?_)
      by_cases hel : e.1 = l
      · rw [hstored e he hel]
        simp [hel, ciMatch, heq]
      · simp [hel]
    rw [happ, hfix]
    refine ⟨rfl, ?_⟩
    simp

/-- C3, witness for the amended theorem: removing key `qwerty` with argument
`abcdef` on the fixture channel is a no-op. -/
theorem apply_modes_argset_remove_checks_case_witness :
    apply_modes rfcTable asciiLower ⟨[('s', none), ('k', some "qwerty")], [], []⟩
        [⟨false, 'k', some "abcdef"⟩] =
      ⟨[('s', none), ('k', some "qwerty")], [], []⟩ :=
  (apply_modes_argset_remove_checks_case rfcTable asciiLower
    ⟨[('s', none), ('k', some "qwerty")], [], []⟩ 'k' "qwerty" "abcdef"
    (by decide) (by decide)).1 (by decide)

/-! ## The parser's per-operation validation -/

theorem listMatch_some {f : String → String} {l : Char} {x : Option String}
    {m : List (Char × Option String)} {s : Option String}
    (h : listMatch f l x m = some s) : (l, s) ∈ m ∧ ciMatch f x s = true := by
  unfold listMatch at h
  obtain ⟨e, hf, he⟩ := Option.map_eq_some'.mp h
  have hmem := List.mem_of_find?_eq_some hf
  have hp := List.find?_some hf
  simp only [Bool.and_eq_true, beq_iff_eq] at hp
  obtain ⟨h1, h2⟩ := hp
  subst he
  rw [← h1]
  exact ⟨hmem, h2⟩

theorem parse_modes_plus_single (t : Char → Option ModeCat) (f : String → String)
    (net : Network) (target : String) (ch : ChanState) (l : Char) (x : String)
    (hlk : lookupChannel f net target = some ch) :
    parse_modes t f net target [String.mk ['+', l], x] =
      parseChars t f net ch [l] [x] true := by
  simp [parse_modes, hlk, parseChars]

theorem parse_modes_minus_single (t : Char → Option ModeCat) (f : String → String)
    (net : Network) (target : String) (ch : ChanState) (l : Char) (x : String)
    (hlk : lookupChannel f net target = some ch) (hp : l ≠ '+') :
    parse_modes t f net target [String.mk ['-', l], x] =
      parseChars t f net ch [l] [x] false := by
  simp [parse_modes, hlk, parseChars, hp]

theorem parseChars_single (t : Char → Option ModeCat) (f : String → String)
    (net : Network) (ch : ChanState) (l : Char) (x : String) (sgn : Bool)
    (cat : ModeCat)
    (hcat : t l = some cat) (hp : l ≠ '+') (hm : l ≠ '-')
    (hneed : needsArg cat sgn = true) :
    parseChars t f net ch [l] [x] sgn =
      match validateOp f net ch cat sgn l x with
      | some op => [op]
      | none => [] := by
  cases hv : validateOp f net ch cat sgn l x <;>
    simp [parseChars, hp, hm, hcat, hneed, hv]

theorem parseChars_pfx (t : Char → Option ModeCat) (f : String → String)
    (net : Network) (ch : ChanState) (sgn : Bool) (l : Char) (tok : String)
    (hcat : t l = some ModeCat.pfx) (hp : l ≠ '+') (hm : l ≠ '-') :
    parseChars t f net ch [l] [tok] sgn =
      (if _get_UID f net tok ∈ ch.users
       then [⟨sgn, l, some (_get_UID f net tok)⟩] else []) := by
  rw [parseChars_single t f net ch l tok sgn ModeCat.pfx hcat hp hm rfl]
  by_cases hmem : _get_UID f net tok ∈ ch.users <;>
    simp [validateOp, hmem]

/-- C4: `parse_modes` includes a `LIST`-category remove only when an existing
stored entry case-insensitively matches the supplied argument, and then the
included argument is the originally-stored one (original case restored); a
`LIST`-category add is included unconditionally. -/
theorem parse_modes_list_semantics
    (t : Char → Option ModeCat) (f : String → String) (net : Network)
    (target : String) (ch : ChanState) (l : Char) (x : String)
    (hlk : lookupChannel f net target = some ch)
    (hcat : t l = some ModeCat.list)
    (hp : l ≠ '+') (hm : l ≠ '-') :
    parse_modes t f net target [String.mk ['+', l], x] = [⟨true, l, some x⟩] ∧
    (listMatch f l (some x) ch.modes = none →
      parse_modes t f net target [String.mk ['-', l], x] = []) ∧
    (∀ s, listMatch f l (some x) ch.modes = some s →
      parse_modes t f net target [String.mk ['-', l], x] = [⟨false, l, s⟩] ∧
      (l, s) ∈ ch.modes ∧ ciMatch f (some x) s = true) := by
  have hplus : parse_modes t f net target [String.mk ['+', l], x] =
      parseChars t f net ch [l] [x] true := by
    simp [parse_modes, hlk, parseChars]
  have hminus : parse_modes t f net target [String.mk ['-', l], x] =
      parseChars t f net ch [l] [x] false := by
    simp [parse_modes, hlk, parseChars, hp]
  refine ⟨?_, ?_, ?_⟩
  · rw [hplus, parseChars_single t f net ch l x true ModeCat.list hcat hp hm rfl]
    simp [validateOp]
  · intro hnone
    rw [hminus, parseChars_single t f net ch l x false ModeCat.list hcat hp hm rfl]
    simp [validateOp, hnone]
  · intro s hsome
    rw [hminus, parseChars_single t f net ch l x false ModeCat.list hcat hp hm rfl]
    have hms := listMatch_some hsome
    simp [validateOp, hsome]
    exact hms

/-- C5: for a `PREFIX`-category operation of either sign, `parse_modes`
resolves the argument through `_get_UID` (exact UID, else nick lookup) and
includes the operation exactly when the resolved identifier is a current
member of the target channel, with the resolved UID as the included
argument; otherwise the operation is silently dropped. -/
theorem parse_modes_prefix_membership
    (t : Char → Option ModeCat) (f : String → String) (net : Network)
    (target : String) (ch : ChanState) (sgn : Bool) (l : Char) (tok : String)
    (hlk : lookupChannel f net target = some ch)
    (hcat : t l = some ModeCat.pfx)
    (hp : l ≠ '+') (hm : l ≠ '-') :
    parse_modes t f net target [String.mk [if sgn then '+' else '-', l], tok] =
      (if _get_UID f net tok ∈ ch.users
       then [⟨sgn, l, some (_get_UID f net tok)⟩] else []) := by
  have hstep : parse_modes t f net target [String.mk [if sgn then '+' else '-', l], tok] =
      parseChars t f net ch [l] [tok] sgn := by
    cases sgn <;> simp [parse_modes, hlk, parseChars, hp]
  rw [hstep, parseChars_pfx t f net ch sgn l tok hcat hp hm]

/-- C7: a key-like `ARG_SET` unset is accepted by `parse_modes` only when the
supplied argument case-insensitively matches the stored value or is the
wildcard `*`; an accepted unset's argument is rewritten to the stored case,
and any other argument yields a no-op: the operation is omitted and applying
the (empty) parse result leaves the mode set unchanged. -/
theorem parse_modes_key_unset
    (t : Char → Option ModeCat) (f : String → String) (net : Network)
    (target : String) (ch : ChanState) (l : Char) (x v : String)
    (hlk : lookupChannel f net target = some ch)
    (hcat : t l = some ModeCat.argSet)
    (hp : l ≠ '+') (hm : l ≠ '-')
    (hstored : letterVal l ch.modes = some (some v)) :
    (f x = f v ∨ x = "*" →
      parse_modes t f net target [String.mk ['-', l], x] = [⟨false, l, some v⟩]) ∧
    (f x ≠ f v → x ≠ "*" →
      parse_modes t f net target [String.mk ['-', l], x] = [] ∧
      apply_modes t f ch (parse_modes t f net target [String.mk ['-', l], x]) = ch) := by
  have hminus : parse_modes t f net target [String.mk ['-', l], x] =
      parseChars t f net ch [l] [x] false := by
    simp [parse_modes, hlk, parseChars, hp]
  rw [hminus, parseChars_single t f net ch l x false ModeCat.argSet hcat hp hm rfl]
  constructor
  · intro hok
    rcases hok with hok | hok <;> simp [validateOp, hstored, hok]
  · intro hne hnw
    have : (f x == f v || x == "*") = false := by
      simp [hne, hnw]
    simp [validateOp, hstored, this, apply_modes]

/-- C4, witness: the channel holds ban `*!*@Test1`; parsing `-b *!*@TEST1`
yields `-b *!*@Test1` with the original stored case restored. -/
theorem parse_modes_list_semantics_witness :
    parse_modes rfcTable asciiLower
        ⟨[], [("#chan", ⟨[('b', some "*!*@Test1")], [], []⟩)]⟩
        "#chan" [String.mk ['-', 'b'], "*!*@TEST1"] =
      [⟨false, 'b', some "*!*@Test1"⟩] ∧
    ('b', some "*!*@Test1") ∈ ([('b', some "*!*@Test1")] :
        List (Char × Option String)) ∧
    ciMatch asciiLower (some "*!*@TEST1") (some "*!*@Test1") = true :=
  ((parse_modes_list_semantics rfcTable asciiLower
      ⟨[], [("#chan", ⟨[('b', some "*!*@Test1")], [], []⟩)]⟩
      "#chan" ⟨[('b', some "*!*@Test1")], [], []⟩ 'b' "*!*@TEST1"
      (by decide) (by decide) (by decide) (by decide)).2.2
    (some "*!*@Test1") (by decide))

/-- C5, witness: `+o 100` on a channel whose member set contains the known
UID `100` resolves and is included with the resolved UID. -/
theorem parse_modes_prefix_membership_witness :
    parse_modes rfcTable asciiLower
        ⟨[("100", "u100")], [("#chan", ⟨[], [], ["100"]⟩)]⟩
        "#chan" [String.mk [if true then '+' else '-', 'o'], "100"] =
      [⟨true, 'o', some "100"⟩] :=
  (parse_modes_prefix_membership rfcTable asciiLower
      ⟨[("100", "u100")], [("#chan", ⟨[], [], ["100"]⟩)]⟩
      "#chan" ⟨[], [], ["100"]⟩ true 'o' "100"
      (by decide) (by decide) (by decide) (by decide)).trans (by decide)

/-- C7, witness: stored key `foobar`; `-k FooBar` is accepted (rewritten to
the stored case) while `-k aBcDeF` is dropped and applying the empty result
changes nothing. -/
theorem parse_modes_key_unset_witness :
    parse_modes rfcTable asciiLower ⟨[], [("#pylink", ⟨[('k', some "foobar")], [], []⟩)]⟩
        "#pylink" [String.mk ['-', 'k'], "FooBar"] = [⟨false, 'k', some "foobar"⟩] ∧
    (parse_modes rfcTable asciiLower ⟨[], [("#pylink", ⟨[('k', some "foobar")], [], []⟩)]⟩
        "#pylink" [String.mk ['-', 'k'], "aBcDeF"] = [] ∧
     apply_modes rfcTable asciiLower ⟨[('k', some "foobar")], [], []⟩
       (parse_modes rfcTable asciiLower ⟨[], [("#pylink", ⟨[('k', some "foobar")], [], []⟩)]⟩
         "#pylink" [String.mk ['-', 'k'], "aBcDeF"]) = ⟨[('k', some "foobar")], [], []⟩) :=
  ⟨(parse_modes_key_unset rfcTable asciiLower
      ⟨[], [("#pylink", ⟨[('k', some "foobar")], [], []⟩)]⟩
      "#pylink" ⟨[('k', some "foobar")], [], []⟩ 'k' "FooBar" "foobar"
      (by decide) (by decide) (by decide) (by decide) (by decide)).1 (Or.inl (by decide)),
   (parse_modes_key_unset rfcTable asciiLower
      ⟨[], [("#pylink", ⟨[('k', some "foobar")], [], []⟩)]⟩
      "#pylink" ⟨[('k', some "foobar")], [], []⟩ 'k' "aBcDeF" "foobar"
      (by decide) (by decide) (by decide) (by decide) (by decide)).2
     (by decide) (by decide)⟩

/-- C10: identifier tokens are resolved case-sensitively as UIDs but
case-insensitively as nicks.  A token that differs from a known UID only in
letter case and is not any user's case-folded nick passes through `_get_UID`
unchanged, so a `PREFIX` operation naming it is dropped as a non-member; a
token that is not a known UID but case-folds to a user's nick resolves to
that user's UID and the operation is included. -/
theorem get_UID_case_semantics
    (t : Char → Option ModeCat) (f : String → String) (net : Network)
    (target : String) (ch : ChanState) (l : Char) (tok uid0 : String)
    (hlk : lookupChannel f net target = some ch)
    (hcat : t l = some ModeCat.pfx) (hp : l ≠ '+') (hm : l ≠ '-')
    (_huid0 : net.users.any (fun u => u.1 == uid0) = true)
    (_hfold : f tok = f uid0) (_hneq : tok ≠ uid0)
    (hnotuid : net.users.any (fun u => u.1 == tok) = false)
    (hnonick : nick_to_uid f net tok = none)
    (hnotmem : tok ∉ ch.users) :
    _get_UID f net tok = tok ∧
    parse_modes t f net target [String.mk ['+', l], tok] = [] ∧
    (∀ tok' uidm, net.users.any (fun u => u.1 == tok') = false →
      nick_to_uid f net tok' = some uidm → uidm ∈ ch.users →
      parse_modes t f net target [String.mk ['+', l], tok'] =
        [⟨true, l, some uidm⟩]) := by
  have hpass : _get_UID f net tok = tok := by
    simp [_get_UID, hnotuid, hnonick]
  refine ⟨hpass, ?_, ?_⟩
  · rw [parse_modes_plus_single t f net target ch l tok hlk,
      parseChars_pfx t f net ch true l tok hcat hp hm, hpass]
    simp [hnotmem]
  · intro tok' uidm hnotuid' hnick hmem
    have hres : _get_UID f net tok' = uidm := by
      simp [_get_UID, hnotuid', hnick]
    rw [parse_modes_plus_single t f net target ch l tok' hlk,
      parseChars_pfx t f net ch true l tok' hcat hp hm, hres]
    simp [hmem]

/-- C10, witness: with user `mynick`/UID `myuid` on the channel, `+o MyUiD`
(wrong-case UID) is dropped while `+o MyNick` (wrong-case nick) resolves to
`myuid` and is included. -/
theorem get_UID_case_semantics_witness :
    _get_UID asciiLower ⟨[("myuid", "mynick")], [("#", ⟨[], [], ["myuid"]⟩)]⟩ "MyUiD" =
      "MyUiD" ∧
    parse_modes rfcTable asciiLower ⟨[("myuid", "mynick")], [("#", ⟨[], [], ["myuid"]⟩)]⟩
        "#" [String.mk ['+', 'o'], "MyUiD"] = [] ∧
    parse_modes rfcTable asciiLower ⟨[("myuid", "mynick")], [("#", ⟨[], [], ["myuid"]⟩)]⟩
        "#" [String.mk ['+', 'o'], "MyNick"] = [⟨true, 'o', some "myuid"⟩] := by
  have h := get_UID_case_semantics rfcTable asciiLower
    ⟨[("myuid", "mynick")], [("#", ⟨[], [], ["myuid"]⟩)]⟩ "#" ⟨[], [], ["myuid"]⟩
    'o' "MyUiD" "myuid"
    (by decide) (by decide) (by decide) (by decide) (by decide) (by decide)
    (by decide) (by decide) (by decide) (by decide)
  exact ⟨h.1, h.2.1, h.2.2 "MyNick" "myuid" (by decide) (by decide) (by decide)⟩

/-! ## Towards the inverse property of `reverse_modes`

The round-trip proof decomposes the state into independent observations
(presence of a case-fold class of a mode letter; membership of a rank pair)
and shows each observation is driven to its pre-batch value.  `settle` is
the engine: if every relevant operation in a list forces an observation to
`target` and irrelevant operations preserve `target`, then the fold ends at
`target` provided the start is already there or some relevant operation
occurs. -/

theorem settle {σ α : Type} (step : σ → Op → σ) (value : σ → α) (rel : Op → Bool)
    (target : α) :
    ∀ (ops : List Op) (s : σ),
    (∀ (s' : σ) (op : Op), op ∈ ops → rel op = true → value (step s' op) = target) →
    (∀ (s' : σ) (op : Op), op ∈ ops → rel op = false → value s' = target →
      value (step s' op) = target) →
    (value s = target ∨ ∃ op ∈ ops, rel op = true) →
    value (List.foldl step s ops) = target
  | [], s, _, _, h0 => by
    cases h0 with
    | inl h => exact h
    | inr h =>
      obtain ⟨op, hmem, _⟩ := h
      exact absurd hmem (List.not_mem_nil op)
  | op :: rest, s, h1, h2, h0 => by
    rw [List.foldl_cons]
    cases hr : rel op with
    | true =>
      exact settle step value rel target rest (step s op)
        (fun s' o ho => h1 s' o (List.mem_cons_of_mem _ ho))
        (fun s' o ho => h2 s' o (List.mem_cons_of_mem _ ho))
        (Or.inl (h1 s op (List.mem_cons_self _ _) hr))
    | false =>
      cases h0 with
      | inl hv =>
        exact settle step value rel target rest (step s op)
          (fun s' o ho => h1 s' o (List.mem_cons_of_mem _ ho))
          (fun s' o ho => h2 s' o (List.mem_cons_of_mem _ ho))
          (Or.inl (h2 s op (List.mem_cons_self _ _) hr hv))
      | inr hex =>
        obtain ⟨o, ho, hro⟩ := hex
        cases List.mem_cons.mp ho with
        | inl heq =>
          subst heq
          rw [hr] at hro
          exact absurd hro (by simp)
        | inr hrest =>
          exact settle step value rel target rest (step s op)
            (fun s' o' ho' => h1 s' o' (List.mem_cons_of_mem _ ho'))
            (fun s' o' ho' => h2 s' o' (List.mem_cons_of_mem _ ho'))
            (Or.inr ⟨o, hrest, hro⟩)

theorem value_foldl_preserved {σ α : Type} (step : σ → Op → σ) (value : σ → α) :
    ∀ (ops : List Op) (s : σ),
    (∀ (s' : σ) (op : Op), op ∈ ops → value (step s' op) = value s') →
    value (List.foldl step s ops) = value s
  | [], _, _ => rfl
  | op :: rest, s, h => by
    rw [List.foldl_cons]
    rw [value_foldl_preserved step value rest (step s op)
      (fun s' o ho => h s' o (List.mem_cons_of_mem _ ho))]
    exact h s op (List.mem_cons_self _ _)

theorem any_congr_mem {α : Type} {m : List α} {p q : α → Bool}
    (h : ∀ e ∈ m, p e = q e) : m.any p = m.any q := by
  induction m with
  | nil => rfl
  | cons a rest ih =>
    rw [List.any_cons, List.any_cons, h a (List.mem_cons_self _ _),
      ih (fun e he => h e (List.mem_cons_of_mem _ he))]

/-! Frame lemmas: which parts of the state an operation can touch. -/

theorem users_applyOne (t : Char → Option ModeCat) (f : String → String)
    (st : ChanState) (op : Op) : (applyOne t f st op).users = st.users := by
  unfold applyOne
  cases htl : t op.letter with
  | none => rfl
  | some cat =>
    cases cat <;> simp only [] <;> (repeat' split) <;> rfl

theorem users_apply_modes (t : Char → Option ModeCat) (f : String → String)
    (ops : List Op) (st : ChanState) :
    (apply_modes t f st ops).users = st.users :=
  value_foldl_preserved (applyOne t f) ChanState.users ops st
    (fun s' o _ => users_applyOne t f s' o)

theorem prefixmodes_applyOne_of_mode (t : Char → Option ModeCat) (f : String → String)
    (st : ChanState) (op : Op) (h : t op.letter ≠ some ModeCat.pfx) :
    (applyOne t f st op).prefixmodes = st.prefixmodes := by
  unfold applyOne
  cases htl : t op.letter with
  | none => rfl
  | some cat =>
    cases cat <;> simp only [] <;> (repeat' split) <;> first | rfl | exact absurd htl h

theorem modes_applyOne_of_nonmode (t : Char → Option ModeCat) (f : String → String)
    (st : ChanState) (op : Op)
    (h : t op.letter = some ModeCat.pfx ∨ t op.letter = none) :
    (applyOne t f st op).modes = st.modes := by
  unfold applyOne
  cases htl : t op.letter with
  | none => rfl
  | some cat =>
    cases cat <;> simp only [] <;> (repeat' split) <;>
      first
      | rfl
      | (rcases h with h | h <;> rw [htl] at h <;> simp at h)

/-! Computation of `applyOne`'s mode list, per category and sign. -/

theorem modes_applyOne_noarg_plus (t : Char → Option ModeCat) (f : String → String)
    (st : ChanState) (lo : Char) (a : Option String)
    (hcat : t lo = some ModeCat.noarg) :
    (applyOne t f st ⟨true, lo, a⟩).modes = insertIfAbsent (lo, a) st.modes := by
  simp [applyOne, hcat]

theorem modes_applyOne_minus (t : Char → Option ModeCat) (f : String → String)
    (st : ChanState) (lo : Char) (a : Option String) (cat : ModeCat)
    (hcat : t lo = some cat) (hnp : cat ≠ ModeCat.pfx) :
    (applyOne t f st ⟨false, lo, a⟩).modes =
      st.modes.filter (fun e => !(e.1 == lo && ciMatch f a e.2)) := by
  cases cat <;> simp [applyOne, hcat]
  exact absurd rfl hnp

theorem modes_applyOne_single_plus (t : Char → Option ModeCat) (f : String → String)
    (st : ChanState) (lo : Char) (a : Option String)
    (hcat : isSingle (t lo) = true) :
    (applyOne t f st ⟨true, lo, a⟩).modes =
      (lo, a) :: st.modes.filter (fun e => e.1 != lo) := by
  unfold isSingle at hcat
  rcases Bool.or_eq_true_iff.mp hcat with h | h <;>
    rw [beq_iff_eq] at h <;> simp [applyOne, h]

theorem modes_applyOne_list_plus (t : Char → Option ModeCat) (f : String → String)
    (st : ChanState) (lo : Char) (a : Option String)
    (hcat : t lo = some ModeCat.list) :
    (applyOne t f st ⟨true, lo, a⟩).modes =
      (if st.modes.any (fun e => e.1 == lo && ciMatch f a e.2) then st.modes
       else (lo, a) :: st.modes) := by
  by_cases hb : st.modes.any (fun e => e.1 == lo && ciMatch f a e.2) <;>
    simp [applyOne, hcat, hb]

/-! Effect of one operation on the class observation `inClassB`. -/

theorem inClassB_applyOne_of_ne (t : Char → Option ModeCat) (f : String → String)
    (st : ChanState) (l : Char) (c : Option String) (op : Op)
    (h : op.letter ≠ l) :
    inClassB f l c (applyOne t f st op) = inClassB f l c st := by
  obtain ⟨p, lo, a⟩ := op
  simp only [] at h
  have hq : ∀ e : Char × Option String, e.1 = lo →
      (e.1 == l && e.2.map f == c) = false := by
    intro e he
    rw [he]
    simp [fun hc => h (hc : lo = l)]
  cases htl : t lo with
  | none =>
    rw [show applyOne t f st ⟨p, lo, a⟩ = st by simp [applyOne, htl]]
  | some cat =>
    cases cat with
    | pfx =>
      unfold inClassB
      rw [modes_applyOne_of_nonmode t f st ⟨p, lo, a⟩ (Or.inl htl)]
    | noarg =>
      cases p with
      | true =>
        unfold inClassB
        rw [modes_applyOne_noarg_plus t f st lo a htl]
        unfold insertIfAbsent
        split
        · rfl
        · rw [List.any_cons, hq (lo, a) rfl, Bool.false_or]
      | false =>
        unfold inClassB
        rw [modes_applyOne_minus t f st lo a ModeCat.noarg htl (by simp),
          List.any_filter]
        refine any_congr_mem (fun e _ => ?_)
        by_cases hel : e.1 = lo
        · rw [hq e hel]
          simp
        · simp [hel]
    | list =>
      cases p with
      | true =>
        unfold inClassB
        rw [modes_applyOne_list_plus t f st lo a htl]
        split
        · rfl
        · rw [List.any_cons, hq (lo, a) rfl, Bool.false_or]
      | false =>
        unfold inClassB
        rw [modes_applyOne_minus t f st lo a ModeCat.list htl (by simp),
          List.any_filter]
        refine any_congr_mem (fun e _ => ?_)
        by_cases hel : e.1 = lo
        · rw [hq e hel]
          simp
        · simp [hel]
    | arg =>
      cases p with
      | true =>
        unfold inClassB
        rw [modes_applyOne_single_plus t f st lo a (by simp [isSingle, htl]),
          List.any_cons, hq (lo, a) rfl, Bool.false_or, List.any_filter]
        refine any_congr_mem (fun e _ => ?_)
        by_cases hel : e.1 = lo
        · rw [hq e hel]
          simp
        · simp [hel]
      | false =>
        unfold inClassB
        rw [modes_applyOne_minus t f st lo a ModeCat.arg htl (by simp),
          List.any_filter]
        refine any_congr_mem (fun e _ => ?_)
        by_cases hel : e.1 = lo
        · rw [hq e hel]
          simp
        · simp [hel]
    | argSet =>
      cases p with
      | true =>
        unfold inClassB
        rw [modes_applyOne_single_plus t f st lo a (by simp [isSingle, htl]),
          List.any_cons, hq (lo, a) rfl, Bool.false_or, List.any_filter]
        refine any_congr_mem (fun e _ => ?_)
        by_cases hel : e.1 = lo
        · rw [hq e hel]
          simp
        · simp [hel]
      | false =>
        unfold inClassB
        rw [modes_applyOne_minus t f st lo a ModeCat.argSet htl (by simp),
          List.any_filter]
        refine any_congr_mem (fun e _ => ?_)
        by_cases hel : e.1 = lo
        · rw [hq e hel]
          simp
        · simp [hel]

theorem blocked_eq_inClassB (f : String → String) (lo : Char) (x : String)
    (st : ChanState) :
    st.modes.any (fun e => e.1 == lo && ciMatch f (some x) e.2) =
      inClassB f lo (some (f x)) st := by
  refine any_congr_mem (fun e _ => ?_)
  rcases e with ⟨el, _ | y⟩
  · simp [ciMatch]
  · simp [ciMatch]

theorem inClassB_applyOne_noarg_plus (t : Char → Option ModeCat)
    (f : String → String) (st : ChanState) (lo : Char) (a c : Option String)
    (hcat : t lo = some ModeCat.noarg) :
    inClassB f lo c (applyOne t f st ⟨true, lo, a⟩) =
      ((a.map f == c) || inClassB f lo c st) := by
  unfold inClassB
  rw [modes_applyOne_noarg_plus t f st lo a hcat]
  unfold insertIfAbsent
  split
  · cases haf : (a.map f == c) with
    | false => rw [Bool.false_or]
    | true =>
      rw [Bool.true_or]
      exact List.any_eq_true.mpr ⟨(lo, a), by assumption, by simp [haf]⟩
  · rw [List.any_cons]
    simp

theorem inClassB_applyOne_single_plus (t : Char → Option ModeCat)
    (f : String → String) (st : ChanState) (lo : Char) (a c : Option String)
    (hcat : isSingle (t lo) = true) :
    inClassB f lo c (applyOne t f st ⟨true, lo, a⟩) = (a.map f == c) := by
  unfold inClassB
  rw [modes_applyOne_single_plus t f st lo a hcat, List.any_cons, List.any_filter]
  have : st.modes.any (fun e => (e.1 != lo) && (e.1 == lo && e.2.map f == c)) = false := by
    refine List.any_eq_false.mpr (fun e _ => ?_)
    cases hel : (e.1 == lo) <;> simp [bne, hel]
  rw [this]
  simp

theorem inClassB_applyOne_list_plus (t : Char → Option ModeCat)
    (f : String → String) (st : ChanState) (lo : Char) (x : String)
    (c : Option String) (hcat : t lo = some ModeCat.list) :
    inClassB f lo c (applyOne t f st ⟨true, lo, some x⟩) =
      ((some (f x) == c) || inClassB f lo c st) := by
  unfold inClassB
  rw [modes_applyOne_list_plus t f st lo (some x) hcat]
  split
  · rename_i hb
    rw [blocked_eq_inClassB f lo x st] at hb
    cases hfx : (some (f x) == (c : Option String)) with
    | false => rw [Bool.false_or]
    | true =>
      rw [Bool.true_or]
      rw [show (c : Option String) = some (f x) from (beq_iff_eq.mp hfx).symm]
      exact hb
  · rw [List.any_cons]
    simp [Option.map]

theorem inClassB_applyOne_minus_none (t : Char → Option ModeCat)
    (f : String → String) (st : ChanState) (lo : Char) (c : Option String)
    (cat : ModeCat) (hcat : t lo = some cat) (hnp : cat ≠ ModeCat.pfx) :
    inClassB f lo c (applyOne t f st ⟨false, lo, none⟩) = false := by
  unfold inClassB
  rw [modes_applyOne_minus t f st lo none cat hcat hnp, List.any_filter]
  refine List.any_eq_false.mpr (fun e _ => ?_)
  cases hel : (e.1 == lo) <;> simp [hel, ciMatch]

theorem inClassB_applyOne_minus_same_class (t : Char → Option ModeCat)
    (f : String → String) (st : ChanState) (lo : Char) (x : String)
    (cat : ModeCat) (hcat : t lo = some cat) (hnp : cat ≠ ModeCat.pfx) :
    inClassB f lo (some (f x)) (applyOne t f st ⟨false, lo, some x⟩) = false := by
  unfold inClassB
  rw [modes_applyOne_minus t f st lo (some x) cat hcat hnp, List.any_filter]
  refine List.any_eq_false.mpr (fun e _ => ?_)
  rcases e with ⟨el, _ | y⟩
  · cases hel : (el == lo) <;> simp [hel, ciMatch]
  · cases hel : (el == lo)
    · simp [hel]
    · cases hy : (f y == f x) <;> simp [hel, hy, ciMatch]

theorem inClassB_applyOne_minus_other_class (t : Char → Option ModeCat)
    (f : String → String) (st : ChanState) (lo : Char) (x : String)
    (c : Option String) (cat : ModeCat) (hcat : t lo = some cat)
    (hnp : cat ≠ ModeCat.pfx) (hc : c ≠ some (f x)) :
    inClassB f lo c (applyOne t f st ⟨false, lo, some x⟩) = inClassB f lo c st := by
  unfold inClassB
  rw [modes_applyOne_minus t f st lo (some x) cat hcat hnp, List.any_filter]
  refine any_congr_mem (fun e _ => ?_)
  rcases e with ⟨el, _ | y⟩
  · cases hel : (el == lo) <;> simp [hel, ciMatch]
  · cases hel : (el == lo)
    · simp [hel]
    · cases hyc : ((some (f y) : Option String) == c) with
      | false => simp [hel, hyc]
      | true =>
        have hyx : (f y == f x) = false := by
          refine beq_eq_false_iff_ne.mpr (fun hyx => ?_)
          exact hc (by rw [← beq_iff_eq.mp hyc, hyx])
        simp [hel, hyc, hyx, ciMatch]

theorem inClassB_applyOne_minus_mono (t : Char → Option ModeCat)
    (f : String → String) (st : ChanState) (lo : Char) (a c : Option String)
    (cat : ModeCat) (hcat : t lo = some cat) (hnp : cat ≠ ModeCat.pfx)
    (hv : inClassB f lo c st = false) :
    inClassB f lo c (applyOne t f st ⟨false, lo, a⟩) = false := by
  unfold inClassB
  rw [modes_applyOne_minus t f st lo a cat hcat hnp, List.any_filter]
  unfold inClassB at hv
  refine List.any_eq_false.mpr (fun e he => ?_)
  have := List.any_eq_false.mp hv e he
  simp only [Bool.and_eq_true] at this ⊢
  exact fun hcon => this hcon.2

/-! Effect of one operation on the rank observation `pmB`. -/

theorem pmB_iff_mem (p : Char × String) (st : ChanState) :
    pmB p st = true ↔ p ∈ st.prefixmodes := by
  unfold pmB
  exact List.any_beq'

theorem applyOne_pfx_argnone (t : Char → Option ModeCat) (f : String → String)
    (st : ChanState) (pl : Bool) (lo : Char)
    (hcat : t lo = some ModeCat.pfx) :
    applyOne t f st ⟨pl, lo, none⟩ = st := by
  simp [applyOne, hcat]

theorem prefixmodes_applyOne_pfx_plus (t : Char → Option ModeCat)
    (f : String → String) (st : ChanState) (lo : Char) (u : String)
    (hcat : t lo = some ModeCat.pfx) :
    (applyOne t f st ⟨true, lo, some u⟩).prefixmodes =
      insertIfAbsent (lo, u) st.prefixmodes := by
  simp [applyOne, hcat]

theorem prefixmodes_applyOne_pfx_minus (t : Char → Option ModeCat)
    (f : String → String) (st : ChanState) (lo : Char) (u : String)
    (hcat : t lo = some ModeCat.pfx) :
    (applyOne t f st ⟨false, lo, some u⟩).prefixmodes =
      st.prefixmodes.filter (fun p => p ≠ (lo, u)) := by
  simp [applyOne, hcat]

theorem pmB_applyOne_of_mode (t : Char → Option ModeCat) (f : String → String)
    (st : ChanState) (p : Char × String) (op : Op)
    (h : t op.letter ≠ some ModeCat.pfx) :
    pmB p (applyOne t f st op) = pmB p st := by
  unfold pmB
  rw [prefixmodes_applyOne_of_mode t f st op h]

theorem pmB_applyOne_pfx_self_plus (t : Char → Option ModeCat)
    (f : String → String) (st : ChanState) (lo : Char) (u : String)
    (hcat : t lo = some ModeCat.pfx) :
    pmB (lo, u) (applyOne t f st ⟨true, lo, some u⟩) = true := by
  unfold pmB
  rw [prefixmodes_applyOne_pfx_plus t f st lo u hcat]
  unfold insertIfAbsent
  split
  · exact List.any_eq_true.mpr ⟨(lo, u), by assumption, by simp⟩
  · rw [List.any_cons]
    simp

theorem pmB_applyOne_pfx_self_minus (t : Char → Option ModeCat)
    (f : String → String) (st : ChanState) (lo : Char) (u : String)
    (hcat : t lo = some ModeCat.pfx) :
    pmB (lo, u) (applyOne t f st ⟨false, lo, some u⟩) = false := by
  unfold pmB
  rw [prefixmodes_applyOne_pfx_minus t f st lo u hcat, List.any_filter]
  refine List.any_eq_false.mpr (fun e _ => ?_)
  by_cases he : e = (lo, u) <;> simp [he]

theorem pmB_applyOne_pfx_other (t : Char → Option ModeCat)
    (f : String → String) (st : ChanState) (lo : Char) (u : String)
    (p : Char × String) (pl : Bool)
    (hcat : t lo = some ModeCat.pfx) (hne : p ≠ (lo, u)) :
    pmB p (applyOne t f st ⟨pl, lo, some u⟩) = pmB p st := by
  cases pl with
  | true =>
    unfold pmB
    rw [prefixmodes_applyOne_pfx_plus t f st lo u hcat]
    unfold insertIfAbsent
    split
    · rfl
    · rw [List.any_cons, show ((lo, u) == p) = false from
        beq_eq_false_iff_ne.mpr (fun h => hne h.symm), Bool.false_or]
  | false =>
    unfold pmB
    rw [prefixmodes_applyOne_pfx_minus t f st lo u hcat, List.any_filter]
    refine any_congr_mem (fun e _ => ?_)
    by_cases hep : e = p
    · subst hep
      simp [hne]
    · simp [hep]

/-! What `reverseOne` emits, per category. -/

theorem reverseOne_noarg_eq (t : Char → Option ModeCat) (f : String → String)
    (S : ChanState) (op : Op) (hcat : t op.letter = some ModeCat.noarg) :
    reverseOne t f S op =
      (if op.plus == S.modes.any (fun e => e.1 == op.letter) then none
       else some ⟨S.modes.any (fun e => e.1 == op.letter), op.letter, none⟩) := by
  cases hb : S.modes.any (fun e => e.1 == op.letter) <;>
    cases hp : op.plus <;> simp [reverseOne, hcat, hb, hp]

theorem reverseOne_pfx_eq (t : Char → Option ModeCat) (f : String → String)
    (S : ChanState) (op : Op) (u : String)
    (hcat : t op.letter = some ModeCat.pfx) (ha : op.arg = some u) :
    reverseOne t f S op =
      (if op.plus == pmB (op.letter, u) S then none
       else some ⟨pmB (op.letter, u) S, op.letter, some u⟩) := by
  by_cases hm : (op.letter, u) ∈ S.prefixmodes
  · have hb : pmB (op.letter, u) S = true := (pmB_iff_mem _ _).mpr hm
    cases hp : op.plus <;> simp [reverseOne, hcat, ha, hm, hb, hp]
  · have hb : pmB (op.letter, u) S = false := by
      cases h : pmB (op.letter, u) S
      · rfl
      · exact absurd ((pmB_iff_mem _ _).mp h) hm
    cases hp : op.plus <;> simp [reverseOne, hcat, ha, hm, hb, hp]

theorem reverseOne_pfx_argnone (t : Char → Option ModeCat) (f : String → String)
    (S : ChanState) (op : Op)
    (hcat : t op.letter = some ModeCat.pfx) (ha : op.arg = none) :
    reverseOne t f S op = none := by
  simp [reverseOne, hcat, ha]

theorem reverseOne_single_some_eq (t : Char → Option ModeCat) (f : String → String)
    (S : ChanState) (op : Op) (a0 : Option String)
    (hsingle : isSingle (t op.letter) = true)
    (hlv : letterVal op.letter S.modes = some a0) :
    reverseOne t f S op =
      (if op.plus && (op.arg == a0) then none
       else some ⟨true, op.letter, a0⟩) := by
  unfold isSingle at hsingle
  rcases Bool.or_eq_true_iff.mp hsingle with h | h <;> rw [beq_iff_eq] at h <;>
    simp [reverseOne, h, hlv]

theorem reverseOne_single_none_eq (t : Char → Option ModeCat) (f : String → String)
    (S : ChanState) (op : Op)
    (hsingle : isSingle (t op.letter) = true)
    (hlv : letterVal op.letter S.modes = none) :
    reverseOne t f S op =
      (if op.plus then some ⟨false, op.letter, none⟩ else none) := by
  unfold isSingle at hsingle
  rcases Bool.or_eq_true_iff.mp hsingle with h | h <;> rw [beq_iff_eq] at h <;>
    simp [reverseOne, h, hlv]

theorem reverseOne_list_eq (t : Char → Option ModeCat) (f : String → String)
    (S : ChanState) (op : Op) (hcat : t op.letter = some ModeCat.list) :
    reverseOne t f S op =
      (if op.plus then
        match listMatch f op.letter op.arg S.modes with
        | some _ => none
        | none => some ⟨false, op.letter, op.arg⟩
       else
        match listMatch f op.letter op.arg S.modes with
        | some s => some ⟨true, op.letter, s⟩
        | none => none) := by
  cases hp : op.plus <;> simp [reverseOne, hcat, hp]

theorem reverseOne_none_eq (t : Char → Option ModeCat) (f : String → String)
    (S : ChanState) (op : Op) (hcat : t op.letter = none) :
    reverseOne t f S op = none := by
  simp [reverseOne, hcat]

theorem applyOne_table_none (t : Char → Option ModeCat) (f : String → String)
    (st : ChanState) (op : Op) (hcat : t op.letter = none) :
    applyOne t f st op = st := by
  simp [applyOne, hcat]

theorem reverseOne_some_letter {t : Char → Option ModeCat} {f : String → String}
    {S : ChanState} {op o' : Op} (h : reverseOne t f S op = some o') :
    o'.letter = op.letter := by
  cases htl : t op.letter with
  | none =>
    rw [reverseOne_none_eq t f S op htl] at h
    exact Option.noConfusion h
  | some cat =>
    cases cat with
    | noarg =>
      rw [reverseOne_noarg_eq t f S op htl] at h
      split at h
      · exact Option.noConfusion h
      · injection h with h2
        subst h2
        rfl
    | pfx =>
      cases ha : op.arg with
      | none =>
        rw [reverseOne_pfx_argnone t f S op htl ha] at h
        exact Option.noConfusion h
      | some u =>
        rw [reverseOne_pfx_eq t f S op u htl ha] at h
        split at h
        · exact Option.noConfusion h
        · injection h with h2
          subst h2
          rfl
    | list =>
      rw [reverseOne_list_eq t f S op htl] at h
      split at h <;> split at h <;>
        first
        | exact Option.noConfusion h
        | (injection h with h2; subst h2; rfl)
    | arg =>
      cases hlv : letterVal op.letter S.modes with
      | some a0 =>
        rw [reverseOne_single_some_eq t f S op a0 (by simp [isSingle, htl]) hlv] at h
        split at h
        · exact Option.noConfusion h
        · injection h with h2
          subst h2
          rfl
      | none =>
        rw [reverseOne_single_none_eq t f S op (by simp [isSingle, htl]) hlv] at h
        split at h
        · injection h with h2
          subst h2
          rfl
        · exact Option.noConfusion h
    | argSet =>
      cases hlv : letterVal op.letter S.modes with
      | some a0 =>
        rw [reverseOne_single_some_eq t f S op a0 (by simp [isSingle, htl]) hlv] at h
        split at h
        · exact Option.noConfusion h
        · injection h with h2
          subst h2
          rfl
      | none =>
        rw [reverseOne_single_none_eq t f S op (by simp [isSingle, htl]) hlv] at h
        split at h
        · injection h with h2
          subst h2
          rfl
        · exact Option.noConfusion h

theorem mem_reverse_modes {t : Char → Option ModeCat} {f : String → String}
    {S : ChanState} {B : List Op} {o' : Op} :
    o' ∈ reverse_modes t f S B ↔ ∃ op ∈ B, reverseOne t f S op = some o' := by
  unfold reverse_modes
  exact List.mem_filterMap

/-! Consequences of the state invariant. -/

theorem letterVal_none_no_letter {l : Char} {m : List (Char × Option String)}
    (hlv : letterVal l m = none) : ∀ e ∈ m, (e.1 == l) = false := by
  intro e he
  unfold letterVal at hlv
  rw [Option.map_eq_none'] at hlv
  have := List.find?_eq_none.mp hlv e he
  simpa using this

theorem inClassB_of_letterVal_none (f : String → String) {l : Char}
    {S : ChanState} (hlv : letterVal l S.modes = none) (c : Option String) :
    inClassB f l c S = false := by
  refine List.any_eq_false.mpr (fun e he => ?_)
  rw [letterVal_none_no_letter hlv e he]
  simp

theorem letterVal_some_mem {l : Char} {m : List (Char × Option String)}
    {a0 : Option String} (hlv : letterVal l m = some a0) : (l, a0) ∈ m := by
  unfold letterVal at hlv
  obtain ⟨e0, hf, he⟩ := Option.map_eq_some'.mp hlv
  have hmem := List.mem_of_find?_eq_some hf
  have hp := List.find?_some hf
  rw [beq_iff_eq] at hp
  subst he
  rw [← hp]
  exact hmem

theorem WF_single_all_eq {t : Char → Option ModeCat} {S : ChanState} {l : Char}
    {a0 : Option String} (hS : WFstate t S) (hsingle : isSingle (t l) = true)
    (hlv : letterVal l S.modes = some a0) :
    ∀ e ∈ S.modes, e.1 = l → e.2 = a0 := by
  intro e he hel
  have h0 := letterVal_some_mem hlv
  exact (hS.1 (l, a0) h0 e he (by simpa using hsingle) hel.symm).symm

theorem inClassB_of_letterVal_some (f : String → String)
    {t : Char → Option ModeCat} {S : ChanState} {l : Char} {a0 : Option String}
    (hS : WFstate t S) (hsingle : isSingle (t l) = true)
    (hlv : letterVal l S.modes = some a0) (c : Option String) :
    inClassB f l c S = (a0.map f == c) := by
  cases haf : (a0.map f == (c : Option String)) with
  | true =>
    exact List.any_eq_true.mpr ⟨(l, a0), letterVal_some_mem hlv, by simp [haf]⟩
  | false =>
    refine List.any_eq_false.mpr (fun e he => ?_)
    cases hel : (e.1 == l) with
    | false => simp [hel]
    | true =>
      rw [WF_single_all_eq hS hsingle hlv e he (beq_iff_eq.mp hel)]
      simp [hel]
      intro hc
      rw [hc] at haf
      simp at haf

theorem hasLetter_of_WF_noarg (f : String → String)
    {t : Char → Option ModeCat} {S : ChanState} {l : Char}
    (hS : WFstate t S) (hcat : t l = some ModeCat.noarg) :
    S.modes.any (fun e => e.1 == l) = inClassB f l none S := by
  refine any_congr_mem (fun e he => ?_)
  cases hel : (e.1 == l) with
  | false => simp [hel]
  | true =>
    rw [hS.2 e he (by rw [beq_iff_eq.mp hel]; exact hcat)]
    simp [hel]

theorem inClassB_some_of_WF_noarg (f : String → String)
    {t : Char → Option ModeCat} {S : ChanState} {l : Char} (cs : String)
    (hS : WFstate t S) (hcat : t l = some ModeCat.noarg) :
    inClassB f l (some cs) S = false := by
  refine List.any_eq_false.mpr (fun e he => ?_)
  cases hel : (e.1 == l) with
  | false => simp [hel]
  | true =>
    rw [hS.2 e he (by rw [beq_iff_eq.mp hel]; exact hcat)]
    simp

theorem listMatch_none_iff (f : String → String) (l : Char) (x : String)
    (st : ChanState) :
    listMatch f l (some x) st.modes = none ↔
      inClassB f l (some (f x)) st = false := by
  unfold listMatch
  rw [Option.map_eq_none', List.find?_eq_none, ← blocked_eq_inClassB,
    List.any_eq_false]

theorem mem_map_foldEntry (f : String → String) (l : Char) (c : Option String)
    (st : ChanState) :
    (l, c) ∈ st.modes.map (foldEntry f) ↔ inClassB f l c st = true := by
  unfold inClassB foldEntry
  rw [List.any_eq_true, List.mem_map]
  constructor
  · rintro ⟨e, he, heq⟩
    refine ⟨e, he, ?_⟩
    obtain ⟨h1, h2⟩ := Prod.mk.injEq .. ▸ heq
    simp [h1, h2]
  · rintro ⟨e, he, heq⟩
    simp only [Bool.and_eq_true, beq_iff_eq] at heq
    exact ⟨e, he, by simp [heq.1, heq.2]⟩

/-! The round trip, one mode letter at a time. -/

theorem inClassB_roundtrip_nonmode (t : Char → Option ModeCat) (f : String → String)
    (S : ChanState) (B : List Op) (l : Char) (c : Option String)
    (htl : t l = none ∨ t l = some ModeCat.pfx) :
    inClassB f l c (apply_modes t f (apply_modes t f S B) (reverse_modes t f S B)) =
      inClassB f l c S := by
  have hpres : ∀ (st : ChanState) (op : Op),
      inClassB f l c (applyOne t f st op) = inClassB f l c st := by
    intro st op
    by_cases hol : op.letter = l
    · rcases htl with h | h
      · rw [applyOne_table_none t f st op (by rw [hol]; exact h)]
      · unfold inClassB
        rw [modes_applyOne_of_nonmode t f st op (Or.inl (by rw [hol]; exact h))]
    · exact inClassB_applyOne_of_ne t f st l c op hol
  unfold apply_modes
  rw [value_foldl_preserved (applyOne t f) (inClassB f l c) (reverse_modes t f S B)
    (List.foldl (applyOne t f) S B) (fun s' o _ => hpres s' o)]
  exact value_foldl_preserved (applyOne t f) (inClassB f l c) B S
    (fun s' o _ => hpres s' o)

theorem inClassB_roundtrip_noarg (t : Char → Option ModeCat) (f : String → String)
    (S : ChanState) (B : List Op) (l : Char) (c : Option String)
    (hS : WFstate t S) (hB : WFbatch t B)
    (htl : t l = some ModeCat.noarg) :
    inClassB f l c (apply_modes t f (apply_modes t f S B) (reverse_modes t f S B)) =
      inClassB f l c S := by
  have hhl : S.modes.any (fun e => e.1 == l) = inClassB f l none S :=
    hasLetter_of_WF_noarg f hS htl
  cases c with
  | none =>
    have hRl : ∀ o' ∈ reverse_modes t f S B, o'.letter = l →
        o' = ⟨inClassB f l none S, l, none⟩ := by
      intro o' ho' hol
      obtain ⟨op, hop, hro⟩ := mem_reverse_modes.mp ho'
      have hopl : op.letter = l := by rw [← reverseOne_some_letter hro]; exact hol
      have hcat' : t op.letter = some ModeCat.noarg := by rw [hopl]; exact htl
      rw [reverseOne_noarg_eq t f S op hcat'] at hro
      split at hro
      · exact Option.noConfusion hro
      · injection hro with h2
        rw [← h2, hopl, hhl]
    have hkey : ∀ s' : ChanState,
        inClassB f l none (applyOne t f s' ⟨inClassB f l none S, l, none⟩) =
          inClassB f l none S := by
      intro s'
      cases hb : inClassB f l none S with
      | true =>
        rw [inClassB_applyOne_noarg_plus t f s' l none none htl]
        simp
      | false =>
        exact inClassB_applyOne_minus_none t f s' l none ModeCat.noarg htl (by simp)
    by_cases hex : ∃ o' ∈ reverse_modes t f S B, o'.letter = l
    · unfold apply_modes
      refine settle (applyOne t f) (inClassB f l none) (fun o => o.letter == l)
        (inClassB f l none S) (reverse_modes t f S B) _ ?_ ?_ ?_
      · intro s' o' ho' hrel
        rw [hRl o' ho' (beq_iff_eq.mp hrel)]
        exact hkey s'
      · intro s' o' _ hrel hv
        rw [inClassB_applyOne_of_ne t f s' l none o' (beq_eq_false_iff_ne.mp hrel)]
        exact hv
      · obtain ⟨o', ho', hol⟩ := hex
        exact Or.inr ⟨o', ho', beq_iff_eq.mpr hol⟩
    · have hBl : ∀ op ∈ B, op.letter = l →
          op.plus = inClassB f l none S ∧ op.arg = none := by
        intro op hop hopl
        refine ⟨?_, (hB op hop).1 (by rw [hopl]; exact htl)⟩
        have hcat' : t op.letter = some ModeCat.noarg := by rw [hopl]; exact htl
        by_contra hne
        have hro := reverseOne_noarg_eq t f S op hcat'
        rw [if_neg (by
          rw [hopl, hhl]
          simp only [beq_iff_eq]
          exact hne)] at hro
        exact hex ⟨_, mem_reverse_modes.mpr ⟨op, hop, hro⟩, by rw [hopl]⟩
      have h1v : inClassB f l none (apply_modes t f S B) = inClassB f l none S := by
        unfold apply_modes
        refine settle (applyOne t f) (inClassB f l none) (fun o => o.letter == l)
          (inClassB f l none S) B S ?_ ?_ (Or.inl rfl)
        · intro s' op hop hrel
          obtain ⟨hplus, harg⟩ := hBl op hop (beq_iff_eq.mp hrel)
          obtain ⟨p, lo, a⟩ := op
          simp only [] at hplus harg
          subst hplus
          subst harg
          have hll : lo = l := beq_iff_eq.mp hrel
          subst hll
          exact hkey s'
        · intro s' o' _ hrel hv
          rw [inClassB_applyOne_of_ne t f s' l none o' (beq_eq_false_iff_ne.mp hrel)]
          exact hv
      unfold apply_modes at h1v ⊢
      refine settle (applyOne t f) (inClassB f l none) (fun o => o.letter == l)
        (inClassB f l none S) (reverse_modes t f S B) _ ?_ ?_ (Or.inl h1v)
      · intro s' o' ho' hrel
        exact absurd ⟨o', ho', beq_iff_eq.mp hrel⟩ hex
      · intro s' o' _ hrel hv
        rw [inClassB_applyOne_of_ne t f s' l none o' (beq_eq_false_iff_ne.mp hrel)]
        exact hv
  | some cs =>
    have hv0 : inClassB f l (some cs) S = false := inClassB_some_of_WF_noarg f cs hS htl
    have hRarg : ∀ o' ∈ reverse_modes t f S B, o'.letter = l → o'.arg = none := by
      intro o' ho' hol
      obtain ⟨op, hop, hro⟩ := mem_reverse_modes.mp ho'
      have hopl : op.letter = l := by rw [← reverseOne_some_letter hro]; exact hol
      have hcat' : t op.letter = some ModeCat.noarg := by rw [hopl]; exact htl
      rw [reverseOne_noarg_eq t f S op hcat'] at hro
      split at hro
      · exact Option.noConfusion hro
      · injection hro with h2
        rw [← h2]
    have hpres : ∀ (st : ChanState) (op : Op), op ∈ B ∨ op ∈ reverse_modes t f S B →
        inClassB f l (some cs) st = false →
        inClassB f l (some cs) (applyOne t f st op) = false := by
      intro st op hmem hv
      by_cases hol : op.letter = l
      · have harg : op.plus = true → op.arg = none := by
          intro _
          cases hmem with
          | inl h => exact (hB op h).1 (by rw [hol]; exact htl)
          | inr h => exact hRarg op h hol
        obtain ⟨p, lo, a⟩ := op
        simp only [] at hol harg
        subst hol
        cases p with
        | true =>
          rw [harg rfl, inClassB_applyOne_noarg_plus t f st lo none (some cs) htl]
          rw [hv]
          simp
        | false =>
          exact inClassB_applyOne_minus_mono t f st lo a (some cs) ModeCat.noarg htl
            (by simp) hv
      · rw [inClassB_applyOne_of_ne t f st l (some cs) op hol]
        exact hv
    rw [hv0]
    have h1v : inClassB f l (some cs) (apply_modes t f S B) = false := by
      unfold apply_modes
      refine settle (applyOne t f) (inClassB f l (some cs)) (fun _ => false)
        false B S (fun s' op _ h => absurd h (by simp)) ?_ (Or.inl hv0)
      intro s' op hop _ hv
      exact hpres s' op (Or.inl hop) hv
    unfold apply_modes at h1v ⊢
    refine settle (applyOne t f) (inClassB f l (some cs)) (fun _ => false)
      false (reverse_modes t f S B) _ (fun s' op _ h => absurd h (by simp)) ?_
      (Or.inl h1v)
    intro s' op hop _ hv
    exact hpres s' op (Or.inr hop) hv

theorem inClassB_roundtrip_single (t : Char → Option ModeCat) (f : String → String)
    (S : ChanState) (B : List Op) (l : Char) (c : Option String)
    (hS : WFstate t S) (hsingle : isSingle (t l) = true) :
    inClassB f l c (apply_modes t f (apply_modes t f S B) (reverse_modes t f S B)) =
      inClassB f l c S := by
  obtain ⟨cat, hcat, hnp⟩ : ∃ cat, t l = some cat ∧ cat ≠ ModeCat.pfx := by
    unfold isSingle at hsingle
    rcases Bool.or_eq_true_iff.mp hsingle with h | h <;> rw [beq_iff_eq] at h
    · exact ⟨ModeCat.arg, h, by simp⟩
    · exact ⟨ModeCat.argSet, h, by simp⟩
  cases hlv : letterVal l S.modes with
  | some a0 =>
    have htarget : inClassB f l c S = (a0.map f == c) :=
      inClassB_of_letterVal_some f hS hsingle hlv c
    have hRl : ∀ o' ∈ reverse_modes t f S B, o'.letter = l → o' = ⟨true, l, a0⟩ := by
      intro o' ho' hol
      obtain ⟨op, hop, hro⟩ := mem_reverse_modes.mp ho'
      have hopl : op.letter = l := by rw [← reverseOne_some_letter hro]; exact hol
      rw [reverseOne_single_some_eq t f S op a0 (by rw [hopl]; exact hsingle)
        (by rw [hopl]; exact hlv)] at hro
      split at hro
      · exact Option.noConfusion hro
      · injection hro with h2
        rw [← h2, hopl]
    have hkey : ∀ s' : ChanState,
        inClassB f l c (applyOne t f s' ⟨true, l, a0⟩) = (a0.map f == c) :=
      fun s' => inClassB_applyOne_single_plus t f s' l a0 c hsingle
    by_cases hex : ∃ o' ∈ reverse_modes t f S B, o'.letter = l
    · rw [htarget]
      unfold apply_modes
      refine settle (applyOne t f) (inClassB f l c) (fun o => o.letter == l)
        (a0.map f == c) (reverse_modes t f S B) _ ?_ ?_ ?_
      · intro s' o' ho' hrel
        rw [hRl o' ho' (beq_iff_eq.mp hrel)]
        exact hkey s'
      · intro s' o' _ hrel hv
        rw [inClassB_applyOne_of_ne t f s' l c o' (beq_eq_false_iff_ne.mp hrel)]
        exact hv
      · obtain ⟨o', ho', hol⟩ := hex
        exact Or.inr ⟨o', ho', beq_iff_eq.mpr hol⟩
    · have hBl : ∀ op ∈ B, op.letter = l → op.plus = true ∧ op.arg = a0 := by
        intro op hop hopl
        have hro := reverseOne_single_some_eq t f S op a0
          (by rw [hopl]; exact hsingle) (by rw [hopl]; exact hlv)
        by_contra hcon
        rw [if_neg (by
          simp only [Bool.and_eq_true, beq_iff_eq]
          exact hcon)] at hro
        exact hex ⟨_, mem_reverse_modes.mpr ⟨op, hop, hro⟩, by rw [hopl]⟩
      have h1v : inClassB f l c (apply_modes t f S B) = (a0.map f == c) := by
        unfold apply_modes
        refine settle (applyOne t f) (inClassB f l c) (fun o => o.letter == l)
          (a0.map f == c) B S ?_ ?_ (Or.inl htarget)
        · intro s' op hop hrel
          obtain ⟨hplus, harg⟩ := hBl op hop (beq_iff_eq.mp hrel)
          obtain ⟨p, lo, a⟩ := op
          simp only [] at hplus harg
          subst hplus
          subst harg
          have hll : lo = l := beq_iff_eq.mp hrel
          subst hll
          exact hkey s'
        · intro s' o' _ hrel hv
          rw [inClassB_applyOne_of_ne t f s' l c o' (beq_eq_false_iff_ne.mp hrel)]
          exact hv
      rw [htarget]
      unfold apply_modes at h1v ⊢
      refine settle (applyOne t f) (inClassB f l c) (fun o => o.letter == l)
        (a0.map f == c) (reverse_modes t f S B) _ ?_ ?_ (Or.inl h1v)
      · intro s' o' ho' hrel
        exact absurd ⟨o', ho', beq_iff_eq.mp hrel⟩ hex
      · intro s' o' _ hrel hv
        rw [inClassB_applyOne_of_ne t f s' l c o' (beq_eq_false_iff_ne.mp hrel)]
        exact hv
  | none =>
    have hv0 : inClassB f l c S = false := inClassB_of_letterVal_none f hlv c
    have hRl : ∀ o' ∈ reverse_modes t f S B, o'.letter = l →
        o' = ⟨false, l, none⟩ := by
      intro o' ho' hol
      obtain ⟨op, hop, hro⟩ := mem_reverse_modes.mp ho'
      have hopl : op.letter = l := by rw [← reverseOne_some_letter hro]; exact hol
      rw [reverseOne_single_none_eq t f S op (by rw [hopl]; exact hsingle)
        (by rw [hopl]; exact hlv)] at hro
      split at hro
      · injection hro with h2
        rw [← h2, hopl]
      · exact Option.noConfusion hro
    by_cases hex : ∃ o' ∈ reverse_modes t f S B, o'.letter = l
    · rw [hv0]
      unfold apply_modes
      refine settle (applyOne t f) (inClassB f l c) (fun o => o.letter == l)
        false (reverse_modes t f S B) _ ?_ ?_ ?_
      · intro s' o' ho' hrel
        rw [hRl o' ho' (beq_iff_eq.mp hrel)]
        exact inClassB_applyOne_minus_none t f s' l c cat hcat hnp
      · intro s' o' _ hrel hv
        rw [inClassB_applyOne_of_ne t f s' l c o' (beq_eq_false_iff_ne.mp hrel)]
        exact hv
      · obtain ⟨o', ho', hol⟩ := hex
        exact Or.inr ⟨o', ho', beq_iff_eq.mpr hol⟩
    · have hBl : ∀ op ∈ B, op.letter = l → op.plus = false := by
        intro op hop hopl
        have hro := reverseOne_single_none_eq t f S op
          (by rw [hopl]; exact hsingle) (by rw [hopl]; exact hlv)
        cases hp : op.plus
        · rfl
        · rw [if_pos hp] at hro
          exact absurd ⟨_, mem_reverse_modes.mpr ⟨op, hop, hro⟩, by rw [hopl]⟩ hex
      have hpres : ∀ (st : ChanState) (op : Op),
          op ∈ B ∨ op ∈ reverse_modes t f S B →
          inClassB f l c st = false → inClassB f l c (applyOne t f st op) = false := by
        intro st op hmem hv
        by_cases hol : op.letter = l
        · have hplus : op.plus = false := by
            cases hmem with
            | inl h => exact hBl op h hol
            | inr h => rw [hRl op h hol]
          obtain ⟨p, lo, a⟩ := op
          simp only [] at hol hplus
          subst hol
          subst hplus
          exact inClassB_applyOne_minus_mono t f st lo a c cat hcat hnp hv
        · rw [inClassB_applyOne_of_ne t f st l c op hol]
          exact hv
      rw [hv0]
      have h1v : inClassB f l c (apply_modes t f S B) = false := by
        unfold apply_modes
        refine settle (applyOne t f) (inClassB f l c) (fun _ => false)
          false B S (fun s' op _ h => absurd h (by simp)) ?_ (Or.inl hv0)
        intro s' op hop _ hv
        exact hpres s' op (Or.inl hop) hv
      unfold apply_modes at h1v ⊢
      refine settle (applyOne t f) (inClassB f l c) (fun _ => false)
        false (reverse_modes t f S B) _ (fun s' op _ h => absurd h (by simp)) ?_
        (Or.inl h1v)
      intro s' op hop _ hv
      exact hpres s' op (Or.inr hop) hv

theorem inClassB_roundtrip_list (t : Char → Option ModeCat) (f : String → String)
    (S : ChanState) (B : List Op) (l : Char) (c : Option String)
    (hB : WFbatch t B) (htl : t l = some ModeCat.list) :
    inClassB f l c (apply_modes t f (apply_modes t f S B) (reverse_modes t f S B)) =
      inClassB f l c S := by
  have hRshape : ∀ o' ∈ reverse_modes t f S B, o'.letter = l →
      ∃ x', o'.arg = some x' ∧
        ((o'.plus = false ∧ listMatch f l (some x') S.modes = none) ∨
         (o'.plus = true ∧ (l, some x') ∈ S.modes)) := by
    intro o' ho' hol
    obtain ⟨op, hop, hro⟩ := mem_reverse_modes.mp ho'
    have hopl : op.letter = l := by rw [← reverseOne_some_letter hro]; exact hol
    have hcat' : t op.letter = some ModeCat.list := by rw [hopl]; exact htl
    obtain ⟨x, hx⟩ := Option.isSome_iff_exists.mp ((hB op hop).2.1 hcat')
    rw [reverseOne_list_eq t f S op hcat'] at hro
    split at hro
    · cases hlm : listMatch f op.letter op.arg S.modes with
      | some s => rw [hlm] at hro; exact Option.noConfusion hro
      | none =>
        rw [hlm] at hro
        injection hro with h2
        rw [hopl, hx] at hlm
        refine ⟨x, by rw [← h2]; exact hx, Or.inl ⟨by rw [← h2], hlm⟩⟩
    · cases hlm : listMatch f op.letter op.arg S.modes with
      | none => rw [hlm] at hro; exact Option.noConfusion hro
      | some s =>
        rw [hlm] at hro
        injection hro with h2
        have hms := listMatch_some hlm
        cases s with
        | none =>
          rw [hx] at hms
          exact absurd hms.2 (by simp [ciMatch])
        | some y =>
          refine ⟨y, by rw [← h2], Or.inr ⟨by rw [← h2], ?_⟩⟩
          rw [← hopl]
          exact hms.1
  cases c with
  | none =>
    have hpres : ∀ (st : ChanState) (op : Op),
        op ∈ B ∨ op ∈ reverse_modes t f S B →
        inClassB f l none (applyOne t f st op) = inClassB f l none st := by
      intro st op hmem
      by_cases hol : op.letter = l
      · have hsome : ∃ x, op.arg = some x := by
          cases hmem with
          | inl h =>
            exact Option.isSome_iff_exists.mp
              ((hB op h).2.1 (by rw [hol]; exact htl))
          | inr h =>
            obtain ⟨x', hx', _⟩ := hRshape op h hol
            exact ⟨x', hx'⟩
        obtain ⟨x, hx⟩ := hsome
        obtain ⟨p, lo, a⟩ := op
        simp only [] at hol hx
        subst hol
        subst hx
        cases p with
        | true =>
          rw [inClassB_applyOne_list_plus t f st lo x none htl]
          simp
        | false =>
          exact inClassB_applyOne_minus_other_class t f st lo x none
            ModeCat.list htl (by simp) (by simp)
      · exact inClassB_applyOne_of_ne t f st l none op hol
    unfold apply_modes
    rw [value_foldl_preserved (applyOne t f) (inClassB f l none)
      (reverse_modes t f S B) (List.foldl (applyOne t f) S B)
      (fun s' o ho => hpres s' o (Or.inr ho))]
    exact value_foldl_preserved (applyOne t f) (inClassB f l none) B S
      (fun s' o ho => hpres s' o (Or.inl ho))
  | some cs =>
    have hRrel : ∀ o' ∈ reverse_modes t f S B, o'.letter = l →
        ∀ x', o'.arg = some x' → f x' = cs →
        o'.plus = inClassB f l (some cs) S := by
      intro o' ho' hol x' harg hfx
      obtain ⟨x'', harg'', hdisj⟩ := hRshape o' ho' hol
      rw [harg] at harg''
      injection harg'' with hxx
      subst hxx
      rcases hdisj with ⟨hpl, hlm⟩ | ⟨hpl, hmem⟩
      · rw [listMatch_none_iff] at hlm
        rw [hfx] at hlm
        rw [hpl, hlm]
      · have hb : inClassB f l (some cs) S = true :=
          List.any_eq_true.mpr ⟨(l, some x'), hmem, by simp [hfx]⟩
        rw [hpl, hb]
    have hb1 : ∀ (s' : ChanState) (o' : Op), o'.letter = l →
        ∀ x', o'.arg = some x' → f x' = cs →
        o'.plus = inClassB f l (some cs) S →
        inClassB f l (some cs) (applyOne t f s' o') = inClassB f l (some cs) S := by
      intro s' o' hol x' harg hfx hplus
      obtain ⟨p, lo, a⟩ := o'
      simp only [] at hol harg hplus
      subst hol
      subst harg
      subst hplus
      cases hb : inClassB f lo (some cs) S with
      | true =>
        rw [inClassB_applyOne_list_plus t f s' lo x' (some cs) htl, hfx]
        simp
      | false =>
        have h := inClassB_applyOne_minus_same_class t f s' lo x'
          ModeCat.list htl (by simp)
        rw [hfx] at h
        exact h
    have hpres_nonrel : ∀ (s' : ChanState) (op : Op),
        op ∈ B ∨ op ∈ reverse_modes t f S B →
        (op.letter == l && (op.arg.map f == some cs)) = false →
        inClassB f l (some cs) (applyOne t f s' op) = inClassB f l (some cs) s' := by
      intro s' op hmem hrel
      by_cases hol : op.letter = l
      · have hsome : ∃ x, op.arg = some x := by
          cases hmem with
          | inl h =>
            exact Option.isSome_iff_exists.mp
              ((hB op h).2.1 (by rw [hol]; exact htl))
          | inr h =>
            obtain ⟨x', hx', _⟩ := hRshape op h hol
            exact ⟨x', hx'⟩
        obtain ⟨x, hx⟩ := hsome
        have hcls : (f x == cs) = false := by
          cases hc2 : ((op.arg.map f : Option String) == some cs) with
          | false =>
            rw [hx] at hc2
            simpa using hc2
          | true =>
            rw [show (op.letter == l) = true from beq_iff_eq.mpr hol, hc2] at hrel
            exact absurd hrel (by simp)
        obtain ⟨p, lo, a⟩ := op
        simp only [] at hol hx
        subst hol
        subst hx
        cases p with
        | true =>
          rw [inClassB_applyOne_list_plus t f s' lo x (some cs) htl,
            show ((some (f x) : Option String) == some cs) = false from by
              simpa using hcls]
          simp
        | false =>
          exact inClassB_applyOne_minus_other_class t f s' lo x (some cs)
            ModeCat.list htl (by simp)
            (fun heq =>
              (beq_eq_false_iff_ne.mp hcls) (Option.some_inj.mp heq).symm)
      · exact inClassB_applyOne_of_ne t f s' l (some cs) op hol

    by_cases hex : ∃ o' ∈ reverse_modes t f S B,
        (o'.letter == l && (o'.arg.map f == some cs)) = true
    · unfold apply_modes
      refine settle (applyOne t f) (inClassB f l (some cs))
        (fun o => o.letter == l && (o.arg.map f == some cs))
        (inClassB f l (some cs) S) (reverse_modes t f S B) _ ?_ ?_ ?_
      · intro s' o' ho' hrel
        have hrel2 := hrel
        rw [Bool.and_eq_true] at hrel2
        obtain ⟨holB, hclsB⟩ := hrel2
        have hol := beq_iff_eq.mp holB
        obtain ⟨x', hx', _⟩ := hRshape o' ho' hol
        have hfx : f x' = cs := by
          rw [hx'] at hclsB
          simpa using hclsB
        exact hb1 s' o' hol x' hx' hfx (hRrel o' ho' hol x' hx' hfx)
      · intro s' o' ho' hrel hv
        rw [hpres_nonrel s' o' (Or.inr ho') hrel]
        exact hv
      · exact Or.inr hex
    · have hBrel : ∀ op ∈ B, (op.letter == l && (op.arg.map f == some cs)) = true →
          op.plus = inClassB f l (some cs) S := by
        intro op hop hrel
        have hrel2 := hrel
        rw [Bool.and_eq_true] at hrel2
        obtain ⟨holB, hclsB⟩ := hrel2
        have hol := beq_iff_eq.mp holB
        have hcat' : t op.letter = some ModeCat.list := by rw [hol]; exact htl
        obtain ⟨x, hx⟩ := Option.isSome_iff_exists.mp ((hB op hop).2.1 hcat')
        have hfx : f x = cs := by
          rw [hx] at hclsB
          simpa using hclsB
        have hro := reverseOne_list_eq t f S op hcat'
        cases hp : op.plus with
        | true =>
          rw [hp] at hro
          simp only [if_true] at hro
          cases hlm : listMatch f op.letter op.arg S.modes with
          | none =>
            rw [hlm] at hro
            refine absurd ⟨_, mem_reverse_modes.mpr ⟨op, hop, hro⟩, ?_⟩ hex
            simp only []
            rw [show (op.letter == l) = true from holB, hx]
            simp [hfx]
          | some s =>
            have hval : inClassB f l (some (f x)) S = true := by
              cases hval : inClassB f l (some (f x)) S with
              | true => rfl
              | false =>
                rw [← listMatch_none_iff] at hval
                rw [hol, hx] at hlm
                rw [hval] at hlm
                exact Option.noConfusion hlm
            rw [hfx] at hval
            rw [hval]
        | false =>
          rw [hp] at hro
          simp only [if_false, Bool.false_eq_true] at hro
          cases hlm : listMatch f op.letter op.arg S.modes with
          | some s =>
            rw [hlm] at hro
            have hms := listMatch_some hlm
            rw [hx] at hms
            refine absurd ⟨_, mem_reverse_modes.mpr ⟨op, hop, hro⟩, ?_⟩ hex
            simp only []
            rw [show (op.letter == l) = true from holB]
            cases s with
            | none => exact absurd hms.2 (by simp [ciMatch])
            | some y =>
              have hyx : f y = f x := by
                have := hms.2
                simpa [ciMatch] using this
              simp [hyx, hfx]
          | none =>
            rw [hol, hx] at hlm
            rw [listMatch_none_iff] at hlm
            rw [hfx] at hlm
            rw [hlm]
      have h1v : inClassB f l (some cs) (apply_modes t f S B) =
          inClassB f l (some cs) S := by
        unfold apply_modes
        refine settle (applyOne t f) (inClassB f l (some cs))
          (fun o => o.letter == l && (o.arg.map f == some cs))
          (inClassB f l (some cs) S) B S ?_ ?_ (Or.inl rfl)
        · intro s' op hop hrel
          have hrel2 := hrel
          rw [Bool.and_eq_true] at hrel2
          obtain ⟨holB, hclsB⟩ := hrel2
          have hol := beq_iff_eq.mp holB
          obtain ⟨x, hx⟩ := Option.isSome_iff_exists.mp
            ((hB op hop).2.1 (by rw [hol]; exact htl))
          have hfx : f x = cs := by
            rw [hx] at hclsB
            simpa using hclsB
          exact hb1 s' op hol x hx hfx (hBrel op hop hrel)
        · intro s' op hop hrel hv
          rw [hpres_nonrel s' op (Or.inl hop) hrel]
          exact hv
      unfold apply_modes at h1v ⊢
      refine settle (applyOne t f) (inClassB f l (some cs))
        (fun o => o.letter == l && (o.arg.map f == some cs))
        (inClassB f l (some cs) S) (reverse_modes t f S B) _ ?_ ?_ (Or.inl h1v)
      · intro s' o' ho' hrel
        exact absurd ⟨o', ho', hrel⟩ hex
      · intro s' o' ho' hrel hv
        rw [hpres_nonrel s' o' (Or.inr ho') hrel]
        exact hv

theorem pmB_roundtrip (t : Char → Option ModeCat) (f : String → String)
    (S : ChanState) (B : List Op) (hB : WFbatch t B) (p : Char × String) :
    pmB p (apply_modes t f (apply_modes t f S B) (reverse_modes t f S B)) =
      pmB p S := by
  obtain ⟨lp, u⟩ := p
  have hnr : ∀ (s' : ChanState) (op : Op),
      (op.letter == lp && (op.arg == some u)) = false →
      pmB (lp, u) (applyOne t f s' op) = pmB (lp, u) s' := by
    intro s' op hrel
    by_cases hpf : t op.letter = some ModeCat.pfx
    · obtain ⟨pl, lo, a⟩ := op
      cases ha : a with
      | none =>
        subst ha
        rw [applyOne_pfx_argnone t f s' pl lo hpf]
      | some u' =>
        subst ha
        refine pmB_applyOne_pfx_other t f s' lo u' (lp, u) pl hpf ?_
        intro h
        obtain ⟨h1, h2⟩ := Prod.mk.injEq .. ▸ h
        rw [show (Op.letter ⟨pl, lo, some u'⟩ == lp) = true from beq_iff_eq.mpr h1.symm,
          show (Op.arg ⟨pl, lo, some u'⟩ == some u) = true from
            beq_iff_eq.mpr (by simp [h2.symm])] at hrel
        exact absurd hrel (by simp)
    · exact pmB_applyOne_of_mode t f s' (lp, u) op hpf
  by_cases htp : t lp = some ModeCat.pfx
  · have hkey : ∀ s' : ChanState,
        pmB (lp, u) (applyOne t f s' ⟨pmB (lp, u) S, lp, some u⟩) = pmB (lp, u) S := by
      intro s'
      cases hb : pmB (lp, u) S with
      | true => exact pmB_applyOne_pfx_self_plus t f s' lp u htp
      | false => exact pmB_applyOne_pfx_self_minus t f s' lp u htp
    have hRl : ∀ o' ∈ reverse_modes t f S B, o'.letter = lp → o'.arg = some u →
        o' = ⟨pmB (lp, u) S, lp, some u⟩ := by
      intro o' ho' holp harg
      obtain ⟨op, hop, hro⟩ := mem_reverse_modes.mp ho'
      have hopl : op.letter = lp := by rw [← reverseOne_some_letter hro]; exact holp
      have hcat' : t op.letter = some ModeCat.pfx := by rw [hopl]; exact htp
      obtain ⟨u'', hu''⟩ := Option.isSome_iff_exists.mp ((hB op hop).2.2 hcat')
      rw [reverseOne_pfx_eq t f S op u'' hcat' hu''] at hro
      split at hro
      · exact Option.noConfusion hro
      · injection hro with h2
        have hu2 : u'' = u := by
          have := harg
          rw [← h2] at this
          simpa using this
        rw [← h2, hu2, hopl]
    by_cases hex : ∃ o' ∈ reverse_modes t f S B,
        (o'.letter == lp && (o'.arg == some u)) = true
    · unfold apply_modes
      refine settle (applyOne t f) (pmB (lp, u))
        (fun o => o.letter == lp && (o.arg == some u))
        (pmB (lp, u) S) (reverse_modes t f S B) _ ?_ ?_ (Or.inr hex)
      · intro s' o' ho' hrel
        have hrel2 := hrel
        rw [Bool.and_eq_true] at hrel2
        rw [hRl o' ho' (beq_iff_eq.mp hrel2.1) (beq_iff_eq.mp hrel2.2)]
        exact hkey s'
      · intro s' o' _ hrel hv
        rw [hnr s' o' hrel]
        exact hv
    · have hBrel : ∀ op ∈ B, (op.letter == lp && (op.arg == some u)) = true →
          op.plus = pmB (lp, u) S := by
        intro op hop hrel
        have hrel2 := hrel
        rw [Bool.and_eq_true] at hrel2
        have hopl := beq_iff_eq.mp hrel2.1
        have hoparg := beq_iff_eq.mp hrel2.2
        have hcat' : t op.letter = some ModeCat.pfx := by rw [hopl]; exact htp
        have hro := reverseOne_pfx_eq t f S op u hcat' hoparg
        have hpm : pmB (op.letter, u) S = pmB (lp, u) S := by rw [hopl]
        cases hpb : (op.plus == pmB (op.letter, u) S) with
        | true =>
          have := beq_iff_eq.mp hpb
          rw [← hpm]
          exact this
        | false =>
          rw [hpb, if_neg (by simp)] at hro
          refine absurd ⟨_, mem_reverse_modes.mpr ⟨op, hop, hro⟩, ?_⟩ hex
          simp only []
          rw [show (op.letter == lp) = true from beq_iff_eq.mpr hopl]
          simp
      have h1v : pmB (lp, u) (apply_modes t f S B) = pmB (lp, u) S := by
        unfold apply_modes
        refine settle (applyOne t f) (pmB (lp, u))
          (fun o => o.letter == lp && (o.arg == some u))
          (pmB (lp, u) S) B S ?_ ?_ (Or.inl rfl)
        · intro s' op hop hrel
          have hplus := hBrel op hop hrel
          have hrel2 := hrel
          rw [Bool.and_eq_true] at hrel2
          have hopl := beq_iff_eq.mp hrel2.1
          have hoparg := beq_iff_eq.mp hrel2.2
          have hshape : op = ⟨pmB (lp, u) S, lp, some u⟩ := by
            obtain ⟨pl, lo, a⟩ := op
            simp only [] at hplus hopl hoparg
            rw [hplus, hopl, hoparg]
          rw [hshape]
          exact hkey s'
        · intro s' op _ hrel hv
          rw [hnr s' op hrel]
          exact hv
      unfold apply_modes at h1v ⊢
      refine settle (applyOne t f) (pmB (lp, u))
        (fun o => o.letter == lp && (o.arg == some u))
        (pmB (lp, u) S) (reverse_modes t f S B) _ ?_ ?_ (Or.inl h1v)
      · intro s' o' ho' hrel
        exact absurd ⟨o', ho', hrel⟩ hex
      · intro s' o' _ hrel hv
        rw [hnr s' o' hrel]
        exact hv
  · have hpres : ∀ (s' : ChanState) (op : Op),
        pmB (lp, u) (applyOne t f s' op) = pmB (lp, u) s' := by
      intro s' op
      by_cases hpf : t op.letter = some ModeCat.pfx
      · refine hnr s' op ?_
        cases hol : (op.letter == lp) with
        | false => simp
        | true =>
          rw [beq_iff_eq.mp hol] at hpf
          exact absurd hpf htp
      · exact pmB_applyOne_of_mode t f s' (lp, u) op hpf
    unfold apply_modes
    rw [value_foldl_preserved (applyOne t f) (pmB (lp, u))
      (reverse_modes t f S B) (List.foldl (applyOne t f) S B)
      (fun s' o _ => hpres s' o)]
    exact value_foldl_preserved (applyOne t f) (pmB (lp, u)) B S
      (fun s' o _ => hpres s' o)

/-- C1, counterexample to the claim as stated: `reverse_modes` is *not* a
true inverse up to exact state equality.  Starting from a channel holding
ban `X`, the canonical batch `[-b X, +b x]` (exactly what `parse_modes`
yields for `['-b+b', 'X', 'x']` against that state) removes the ban and
re-adds it in lower case; the reverse batch computed against the original
state treats the re-add as already present (case-insensitively) and emits no
inverse for it, so the round trip ends with the stored ban in case `x`, not
the original `X`. -/
theorem reverse_modes_exact_inverse_claim_false :
    parse_modes rfcTable asciiLower ⟨[], [("#chan", ⟨[('b', some "X")], [], []⟩)]⟩
        "#chan" ["-b+b", "X", "x"] =
      [⟨false, 'b', some "X"⟩, ⟨true, 'b', some "x"⟩] ∧
    ¬ stateEq
        (apply_modes rfcTable asciiLower
          (apply_modes rfcTable asciiLower ⟨[('b', some "X")], [], []⟩
            [⟨false, 'b', some "X"⟩, ⟨true, 'b', some "x"⟩])
          (reverse_modes rfcTable asciiLower ⟨[('b', some "X")], [], []⟩
            [⟨false, 'b', some "X"⟩, ⟨true, 'b', some "x"⟩]))
        ⟨[('b', some "X")], [], []⟩ := by
  constructor
  · decide
  · intro h
    obtain ⟨h1, -, -⟩ := h
    have hm := (h1 ('b', some "x")).mp (by decide)
    exact absurd hm (by decide)

/-- C1, amended: `reverse_modes` is an inverse up to case-folding of the
stored mode arguments.  For every target state `S` satisfying the
data-model invariants and every canonical operation batch `B`, applying `B`
to `S` and then the batch `reverse_modes` computes against the original `S`
restores `S` exactly up to the stored case of mode arguments: the
case-folded mode sets, the prefix-mode table and the member set all match.
(Exact equality fails only in the stored case of a `LIST` argument, per the
counterexample.) -/
theorem reverse_modes_inverse_up_to_case (t : Char → Option ModeCat)
    (f : String → String) (S : ChanState) (B : List Op)
    (hS : WFstate t S) (hB : WFbatch t B) :
    stateEqUpToCase f
      (apply_modes t f (apply_modes t f S B) (reverse_modes t f S B)) S := by
  refine ⟨?_, ?_, ?_⟩
  · intro x
    obtain ⟨l, c⟩ := x
    rw [mem_map_foldEntry, mem_map_foldEntry]
    have hcls : inClassB f l c
        (apply_modes t f (apply_modes t f S B) (reverse_modes t f S B)) =
        inClassB f l c S := by
      cases htl : t l with
      | none => exact inClassB_roundtrip_nonmode t f S B l c (Or.inl htl)
      | some cat =>
        cases cat with
        | pfx => exact inClassB_roundtrip_nonmode t f S B l c (Or.inr htl)
        | noarg => exact inClassB_roundtrip_noarg t f S B l c hS hB htl
        | arg => exact inClassB_roundtrip_single t f S B l c hS (by simp [isSingle, htl])
        | argSet => exact inClassB_roundtrip_single t f S B l c hS (by simp [isSingle, htl])
        | list => exact inClassB_roundtrip_list t f S B l c hB htl
    rw [hcls]
  · intro p
    rw [← pmB_iff_mem, ← pmB_iff_mem, pmB_roundtrip t f S B hB p]
  · rw [users_apply_modes, users_apply_modes]

/-- C1, witness for the amended theorem: the counterexample scenario
satisfies the invariants, and the round trip indeed restores the state up to
case-folding. -/
theorem reverse_modes_inverse_up_to_case_witness :
    stateEqUpToCase asciiLower
      (apply_modes rfcTable asciiLower
        (apply_modes rfcTable asciiLower ⟨[('b', some "X")], [], []⟩
          [⟨false, 'b', some "X"⟩, ⟨true, 'b', some "x"⟩])
        (reverse_modes rfcTable asciiLower ⟨[('b', some "X")], [], []⟩
          [⟨false, 'b', some "X"⟩, ⟨true, 'b', some "x"⟩]))
      ⟨[('b', some "X")], [], []⟩ :=
  reverse_modes_inverse_up_to_case rfcTable asciiLower
    ⟨[('b', some "X")], [], []⟩
    [⟨false, 'b', some "X"⟩, ⟨true, 'b', some "x"⟩]
    (by decide) (by decide)

end PyLink
